import Mathlib

/-!
# Verification of the Simplified Access Manager core

Shallow embedding of the model / form-generation core of
`simplified_access_manager.py` (class `Model` and class `FormGenerator`),
together with proofs settling the specification claims.

Modelling conventions:
* Python dicts are insertion-ordered association lists with unique keys
  (`alGet` / `alSet` / `alDel` mirror `d[k]`, `d[k] = v`, `del d[k]`).
* Python `sorted(...)` is modelled by `List.insertionSort`, which computes
  the same (sorted) list on the duplicate-free inputs it is applied to.
* A Python `set` of ints is modelled by a duplicate-free list (`List.dedup`
  of the source list); only its membership and its sorted form are ever used.
* Python ints are `Nat` (all ids in the program are non-negative).
* `sha256` is an uninterpreted parameter `(sha : String → String)`:
  every theorem about `authenticate_user` holds for an arbitrary hash.
* Exceptions (`ValueError` from `list.remove`) are modelled with `Except`.
-/

namespace AccessManager

/-- `d.get(k)` / `d[k]` on a Python dict modelled as an association list. -/
def alGet {K V : Type} [DecidableEq K] (k : K) : List (K × V) → Option V
  | [] => none
  | (k', v) :: rest => if k' = k then some v else alGet k rest

/-- `d[k] = v` on a Python dict: overwrite in place, or append a new key. -/
def alSet {K V : Type} [DecidableEq K] (k : K) (v : V) : List (K × V) → List (K × V)
  | [] => [(k, v)]
  | (k', v') :: rest => if k' = k then (k, v) :: rest else (k', v') :: alSet k v rest

/-- `del d[k]` on a Python dict. -/
def alDel {K V : Type} [DecidableEq K] (k : K) : List (K × V) → List (K × V)
  | [] => []
  | (k', v') :: rest => if k' = k then rest else (k', v') :: alDel k rest

/-- Python `max(list, default=0)`. -/
def listMaxD (l : List Nat) : Nat := l.foldr max 0

/-- A `{"id": .., "name": .., "categoryId": ..}` system record. -/
structure System where
  id : Nat
  name : String
  categoryId : Nat
deriving DecidableEq, Repr

/-- A `{"id": .., "name": ..}` category record. -/
structure Category where
  id : Nat
  name : String
deriving DecidableEq, Repr

/-- A role record: string id and a two-level resource → action → Bool grid. -/
structure Role where
  id : String
  name : String
  description : String
  permissions : List (String × List (String × Bool))
deriving DecidableEq, Repr

/-- A user record.  `active` is `Option Bool` because the `"active"` field may
be absent from a legacy record (the code reads it with `user.get("active", True)`). -/
structure User where
  id : Nat
  username : String
  password : String
  name : String
  role : String
  active : Option Bool
deriving DecidableEq, Repr

/-- The mutable state of the Python `Model` object: the entity lists, the
secondary indexes the code maintains alongside them, the position → systems
matrix (keys are `str(pos_id)`, values are the stored lists of system ids),
and the single `generate_checked_only` setting. -/
structure Model where
  systems : List System
  systems_by_id : List (Nat × System)
  categories : List Category
  categories_by_id : List (Nat × Category)
  systems_by_cat : List (Nat × List System)
  roles_by_id : List (String × Role)
  users_by_username : List (String × User)
  matrix : List (String × List Nat)
  generate_checked_only : Bool
deriving Repr, DecidableEq

/-- The state of a freshly constructed `Model` when neither data file exists. -/
def Model.init : Model :=
  { systems := [], systems_by_id := [], categories := [], categories_by_id := []
  , systems_by_cat := [], roles_by_id := [], users_by_username := []
  , matrix := [], generate_checked_only := false }

/-- `Model.systems_for_position`: `set(int(x) for x in matrix.get(str(pos_id), []))`,
the set modelled as a duplicate-free list. -/
def Model.systems_for_position (m : Model) (pos_id : Nat) : List Nat :=
  ((alGet (toString pos_id) m.matrix).getD []).dedup

/-- `Model.set_system_for_position`: read the entry as a set, add or discard
`sys_id`, store `sorted(current)` back under `str(pos_id)` (the key is always
(re)assigned, never deleted here). -/
def Model.set_system_for_position (m : Model) (pos_id sys_id : Nat)
    (enabled : Bool) : Model :=
  let pos_key := toString pos_id
  let current := ((alGet pos_key m.matrix).getD []).dedup
  let current := if enabled then (if sys_id ∈ current then current else current ++ [sys_id])
                 else current.filter (fun i => i ≠ sys_id)
  { m with matrix := alSet pos_key (List.insertionSort (· ≤ ·) current) m.matrix }

/-- `Model.add_category`: id is `max(existing ids, default 0) + 1`; the record
is appended to `categories` and indexed in `categories_by_id`. -/
def Model.add_category (m : Model) (name : String) : Model × Category :=
  let new_id := listMaxD (m.categories.map (·.id)) + 1
  let c : Category := ⟨new_id, name⟩
  ({ m with categories := m.categories ++ [c]
          , categories_by_id := alSet new_id c m.categories_by_id }, c)

/-- The "in use" rejection message of `Model.delete_category`. -/
def msgCatInUse : String := "Cannot delete category with systems. Move or delete systems first."

/-- The "not found" rejection message of `Model.delete_category`. -/
def msgCatNotFound : String := "Category not found"

/-- `Model.delete_category`: refuse if the id is unknown, refuse if any system
still references the category, otherwise remove it from the list and index. -/
def Model.delete_category (m : Model) (cat_id : Nat) : Model × Bool × String :=
  if (alGet cat_id m.categories_by_id).isSome then
    if m.systems.any (fun s => s.categoryId = cat_id) then
      (m, false, msgCatInUse)
    else
      ({ m with categories_by_id := alDel cat_id m.categories_by_id
              , categories := m.categories.filter (fun c => c.id ≠ cat_id) },
       true, "Category deleted successfully")
  else (m, false, msgCatNotFound)

/-- `Model.add_system`: id is `max+1`; appended to `systems`, indexed in
`systems_by_id`, and appended to its category's group
(`systems_by_cat.setdefault(category_id, []).append(...)`). -/
def Model.add_system (m : Model) (name : String) (category_id : Nat) : Model × System :=
  let new_id := listMaxD (m.systems.map (·.id)) + 1
  let s : System := ⟨new_id, name, category_id⟩
  let sbc := match alGet category_id m.systems_by_cat with
    | some l => alSet category_id (l ++ [s]) m.systems_by_cat
    | none => m.systems_by_cat ++ [(category_id, [s])]
  ({ m with systems := m.systems ++ [s]
          , systems_by_id := alSet new_id s m.systems_by_id
          , systems_by_cat := sbc }, s)

/-- Python `==` between an `int` and a `str` is always `False` (no coercion). -/
def pyIntEqStr (_ : Nat) (_ : String) : Bool := false

/-- Python `list.remove(x)` where the list holds ints and `x` is a string:
remove the first element equal to `x`, raising `ValueError` if none is —
and by `pyIntEqStr`, none ever is. -/
def pyListRemoveStr (x : String) (l : List Nat) : Except String (List Nat) :=
  match l.findIdx? (fun n => pyIntEqStr n x) with
  | some i => .ok (l.eraseIdx i)
  | none => .error "ValueError: list.remove(x): x not in list"

/-- The matrix-cleanup loop of `Model.delete_system`: for each position key
whose (int) list contains `sys_id`, call `list.remove(str(sys_id))` on it and
drop the key if the list became empty.  Raising propagates out of the loop. -/
def deleteSysFromMatrix (sys_id : Nat) :
    List (String × List Nat) → Except String (List (String × List Nat))
  | [] => .ok []
  | (k, l) :: rest =>
    if sys_id ∈ l then
      match pyListRemoveStr (toString sys_id) l with
      | .error e => .error e
      | .ok l' =>
        if l' = [] then deleteSysFromMatrix sys_id rest
        else (deleteSysFromMatrix sys_id rest).map (fun r => (k, l') :: r)
    else (deleteSysFromMatrix sys_id rest).map (fun r => (k, l) :: r)

/-- `Model.delete_system`: remove the system from the list, the id index and
its category group (dropping the group if it became empty), then scrub the
matrix.  The scrub may raise `ValueError` (see `pyListRemoveStr`). -/
def Model.delete_system (m : Model) (sys_id : Nat) :
    Except String (Model × Bool × String) :=
  match alGet sys_id m.systems_by_id with
  | none => .ok (m, false, "System not found")
  | some system =>
    let category_id := system.categoryId
    let systems' := m.systems.filter (fun s => s.id ≠ sys_id)
    let sbid' := alDel sys_id m.systems_by_id
    let sbc' := match alGet category_id m.systems_by_cat with
      | some l =>
        let l' := l.filter (fun s => s.id ≠ sys_id)
        if l' = [] then alDel category_id m.systems_by_cat
        else alSet category_id l' m.systems_by_cat
      | none => m.systems_by_cat
    match deleteSysFromMatrix sys_id m.matrix with
    | .error e => .error e
    | .ok mat' =>
      .ok ({ m with systems := systems', systems_by_id := sbid'
                  , systems_by_cat := sbc', matrix := mat' },
           true, "System deleted successfully")

/-- `Model.get_role_by_id`. -/
def Model.get_role_by_id (m : Model) (role_id : String) : Option Role :=
  alGet role_id m.roles_by_id

/-- `Model.check_permission`: deny for a missing user, an unresolved role, a
missing resource key or a missing action key; otherwise return the stored flag. -/
def Model.check_permission (m : Model) (user : Option User)
    (resource action : String) : Bool :=
  match user with
  | none => false
  | some u =>
    match m.get_role_by_id u.role with
    | none => false
    | some role =>
      let resource_permissions := (alGet resource role.permissions).getD []
      (alGet action resource_permissions).getD false

/-- `Model.get_user_by_username`. -/
def Model.get_user_by_username (m : Model) (username : String) : Option User :=
  alGet username m.users_by_username

/-- `Model.authenticate_user` (parameterised by the hash function): the user
must exist, `user.get("active", True)` must be truthy, and the stored password
must equal either the hash of the supplied password or the password itself. -/
def Model.authenticate_user (sha : String → String) (m : Model)
    (username password : String) : Option User :=
  match m.get_user_by_username username with
  | none => none
  | some user =>
    if user.active.getD true then
      if user.password = sha password ∨ user.password = password then some user
      else none
    else none

/-! ## Form generation -/

/-- Python `str.replace(pat, rep)` for a single-character pattern: every
occurrence of the character is replaced (left to right, non-overlapping). -/
def pyReplaceChar (pat : Char) (rep : List Char) : List Char → List Char
  | [] => []
  | c :: rest => (if c = pat then rep else [c]) ++ pyReplaceChar pat rep rest

/-- `FormGenerator._escape_html`: chained `.replace` for `&`, `<`, `>`, `"`
(in that order, `&` first). -/
def escapeHtmlL (s : List Char) : List Char :=
  pyReplaceChar '"' (("&quot;").data)
    (pyReplaceChar '>' (("&gt;").data)
      (pyReplaceChar '<' (("&lt;").data)
        (pyReplaceChar '&' (("&amp;").data) s)))

/-- `FormGenerator._escape_html` on strings. -/
def FormGenerator.escape_html (s : String) : String := ⟨escapeHtmlL s.data⟩

/-- The intended per-character translation of `_escape_html`: each of the four
reserved characters becomes its entity, all other characters stay themselves. -/
def escChar (c : Char) : List Char :=
  if c = '&' then ("&amp;").data
  else if c = '<' then ("&lt;").data
  else if c = '>' then ("&gt;").data
  else if c = '"' then ("&quot;").data
  else [c]

/-- An HTML-entity decoder for the four entities produced by `_escape_html`
(specification side, for the round-trip property). -/
def unescapeHtmlL : List Char → List Char
  | '&' :: 'a' :: 'm' :: 'p' :: ';' :: rest => '&' :: unescapeHtmlL rest
  | '&' :: 'l' :: 't' :: ';' :: rest => '<' :: unescapeHtmlL rest
  | '&' :: 'g' :: 't' :: ';' :: rest => '>' :: unescapeHtmlL rest
  | '&' :: 'q' :: 'u' :: 'o' :: 't' :: ';' :: rest => '"' :: unescapeHtmlL rest
  | c :: rest => c :: unescapeHtmlL rest
  | [] => []

/-! ### `FormGenerator._set_input_value`

The source locates the first `<input ...>` element carrying `id="{input_id}"`
with the regex `(<input\b[^>]*\bid="{input_id}"[^>]*)(>)` (IGNORECASE،
`count=1`).  Since `[^>]*` cannot cross a `>`, a position matches exactly when
it starts with `<input` followed by a word boundary and the text up to the
first subsequent `>` contains `id="{input_id}"` preceded by a non-word
character; the match then extends to that `>`.  The embedding below implements
that characterisation directly (ASCII word characters; the field ids used by
the program are plain ASCII identifiers without regex metacharacters). -/

/-- ASCII `\w`. -/
def isWordChar (c : Char) : Bool := c.isAlphanum || c = '_'

/-- Case-insensitive character comparison (`re.IGNORECASE`). -/
def ciEq (a b : Char) : Bool := a.toLower = b.toLower

/-- Case-insensitive "starts with". -/
def ciPfx : List Char → List Char → Bool
  | [], _ => true
  | _ :: _, [] => false
  | p :: ps, c :: cs => ciEq p c && ciPfx ps cs

/-- The literal part `id="{input_id}"` of the pattern. -/
def idPat (x : List Char) : List Char := 'i' :: 'd' :: '=' :: '"' :: (x ++ ['"'])

/-- Does the segment contain `\bid="{x}"`?  Scans with the previous character
to evaluate the word boundary. -/
def hasIdOccAux (x : List Char) : Char → List Char → Bool
  | _, [] => false
  | prev, c :: rest =>
    (!(isWordChar prev) && ciPfx (idPat x) (c :: rest)) || hasIdOccAux x c rest

/-- Does the regex match at the start of `s`? -/
def tagMatch (x : List Char) (s : List Char) : Bool :=
  ciPfx (("<input").data) s &&
  (match s.drop 6 with
   | [] => true
   | c :: _ => !(isWordChar c)) &&
  s.contains '>' &&
  (match s.takeWhile (fun c => c ≠ '>') with
   | [] => false
   | c :: rest => hasIdOccAux x c rest)

/-- Leftmost match of the pattern: returns `(pre, attrs, post)` with the
document equal to `pre ++ attrs ++ '>' :: post`, where `attrs` is group 1. -/
def findTag (x : List Char) : List Char → Option (List Char × List Char × List Char)
  | [] => none
  | c :: rest =>
    if tagMatch x (c :: rest) then
      some ([], (c :: rest).takeWhile (fun d => d ≠ '>'),
            ((c :: rest).dropWhile (fun d => d ≠ '>')).tail)
    else
      match findTag x rest with
      | some (p, a, post) => some (c :: p, a, post)
      | none => none

/-- The literal `value=` (checked case-sensitively by Python's `in`). -/
def valueEqPat : List Char := 'v' :: 'a' :: 'l' :: 'u' :: 'e' :: '=' :: []

/-- Python substring test `pat in s` (case-sensitive). -/
def containsSub (pat : List Char) : List Char → Bool
  | [] => pat.isEmpty
  | c :: rest => pat.isPrefixOf (c :: rest) || containsSub pat rest

/-- The literal `value="` that opens a well-formed value attribute. -/
def vq7 : List Char := 'v' :: 'a' :: 'l' :: 'u' :: 'e' :: '=' :: '"' :: []

/-- `re.sub(r'value="[^"]*"', f'value="{escaped}"', attrs)` — fuel-indexed
scan (the fuel, initialised to the text length, strictly exceeds every
recursive call's length, so it never runs out).  At a position starting a
well-formed `value="…"` the match (up to the next quote, `[^"]*` being unable
to cross one) is replaced by `value="{esc}"` and scanning resumes after it.
At a `value="` with no later quote there is no match at this position — and no
later position can match either, a match needing a quote — so the remainder is
emitted unchanged.  The replacement is inserted literally: re.sub escape
processing of the replacement string is not modelled, so the results are
faithful for backslash-free `esc` (which is why the idempotence theorem
assumes a backslash-free value). -/
def replaceValuesF (esc : List Char) : Nat → List Char → List Char
  | 0, s => s
  | _ + 1, [] => []
  | fuel + 1, c :: rest =>
    if vq7.isPrefixOf (c :: rest) && ((c :: rest).drop 7).contains '"' then
      vq7 ++ esc ++ '"' ::
        replaceValuesF esc fuel ((((c :: rest).drop 7).dropWhile (fun d => d ≠ '"')).tail)
    else if vq7.isPrefixOf (c :: rest) then c :: rest
    else c :: replaceValuesF esc fuel rest

/-- The value-attribute substitution on a text. -/
def replaceValues (esc s : List Char) : List Char := replaceValuesF esc s.length s

/-- The text ` value="{esc}"` appended when the element had no `value=`. -/
def appendedValueAttr (esc : List Char) : List Char :=
  ' ' :: 'v' :: 'a' :: 'l' :: 'u' :: 'e' :: '=' :: '"' :: (esc ++ ['"'])

/-- The `repl` callback of `_set_input_value`: overwrite every `value="…"` if
the attribute text contains `value=`, otherwise append ` value="{esc}"`. -/
def rewriteAttrs (esc attrs : List Char) : List Char :=
  if containsSub valueEqPat attrs then replaceValues esc attrs
  else attrs ++ appendedValueAttr esc

/-- `FormGenerator._set_input_value` on character lists: rewrite the first
matching `<input>` element, leave the document unchanged if none matches. -/
def setInputValueL (x v html : List Char) : List Char :=
  match findTag x html with
  | none => html
  | some (pre, attrs, post) => pre ++ rewriteAttrs (escapeHtmlL v) attrs ++ '>' :: post

/-- `FormGenerator._set_input_value` on strings. -/
def FormGenerator.set_input_value (html input_id value : String) : String :=
  ⟨setInputValueL input_id.data value.data html.data⟩

/-! ### System-section rendering -/

/-- One checkbox label of `_render_system_sections` (`{checked}` and `{name}`
already substituted; the name is always passed through `_escape_html`). -/
def sectionLabelHtml (checkedAttr name : String) : String :=
  "<label class=\"flex items-center gap-2\">\n    <input type=\"checkbox\" "
    ++ checkedAttr
    ++ " style=\"height: var(--checkbox-size); width: var(--checkbox-size);\" />\n    <span>"
    ++ name ++ "</span>\n</label>"

/-- One category block of `_render_system_sections`. -/
def sectionBlockHtml (catName rows : String) : String :=
  "\n<div>\n  <h4 class=\"bg-blue-900 text-white font-bold p-2 rounded\" style=\"font-size: var(--text-section-header);\">"
    ++ catName
    ++ "</h4>\n  <div class=\"grid grid-cols-2 gap-1 p-2\" style=\"font-size: var(--text-checkbox);\">\n    "
    ++ rows ++ "\n  </div>\n</div>"

/-- The `(system, checked?)` rows enumerated by `_render_system_sections` and
by the checklist-row loop of `make_new_hire_forms`: categories in ascending id
order, systems in the stored per-category order, flagged by membership of the
system id in the checked set. -/
def sectionRows (systems_by_cat : List (Nat × List System)) (checked : List Nat) :
    List (System × Bool) :=
  (List.insertionSort (· ≤ ·) (systems_by_cat.map (·.1))).flatMap (fun cat_id =>
    ((alGet cat_id systems_by_cat).getD []).map (fun s => (s, decide (s.id ∈ checked))))

/-- `FormGenerator._render_system_sections` assembled as a string. -/
def renderSystemSections (systems_by_cat : List (Nat × List System))
    (checked : List Nat) (categories_by_id : List (Nat × Category)) : String :=
  let blocks := (List.insertionSort (· ≤ ·) (systems_by_cat.map (·.1))).map (fun cat_id =>
    let systems := (alGet cat_id systems_by_cat).getD []
    let rows := systems.map (fun s =>
      sectionLabelHtml (if s.id ∈ checked then ("checked") else ("")) (FormGenerator.escape_html s.name))
    let cat_name := match alGet cat_id categories_by_id with
      | some c => c.name
      | none => "Categoría " ++ toString cat_id
    sectionBlockHtml cat_name (String.join rows))
  String.intercalate ("\n") blocks

/-- The filtered grouping built by `make_new_hire_forms` when
`generate_checked_only` is set: keep only assigned systems, dropping
categories whose filtered list is empty. -/
def filterByChecked (sbc : List (Nat × List System)) (checked : List Nat) :
    List (Nat × List System) :=
  sbc.filterMap (fun p =>
    if p.2.filter (fun s => s.id ∈ checked) = [] then none
    else some (p.1, p.2.filter (fun s => s.id ∈ checked)))

/-- The `systems_by_category` grouping `make_new_hire_forms` renders from. -/
def Model.newHireSystemsByCat (m : Model) (pos_id : Nat) : List (Nat × List System) :=
  let checked := m.systems_for_position pos_id
  if m.generate_checked_only then filterByChecked m.systems_by_cat checked
  else m.systems_by_cat

/-- The `(system, checked?)` rows of the request (solicitud) document and of
the checklist document generated by `make_new_hire_forms` (both loops
enumerate `systems_by_category` identically). -/
def Model.newHireRows (m : Model) (pos_id : Nat) : List (System × Bool) :=
  sectionRows (m.newHireSystemsByCat pos_id) (m.systems_for_position pos_id)

/-- The grouping loop of `_render_departure_systems`: walk the checked ids in
ascending order, skip ids with no catalog record, group records by
`categoryId` in a dict built with `setdefault(...).append(...)`. -/
def Model.departureGroups (m : Model) (checked : List Nat) : List (Nat × List System) :=
  (List.insertionSort (· ≤ ·) checked).foldl (fun acc sys_id =>
    match alGet sys_id m.systems_by_id with
    | none => acc
    | some s =>
      match alGet s.categoryId acc with
      | some l => alSet s.categoryId (l ++ [s]) acc
      | none => acc ++ [(s.categoryId, [s])]) []

/-- The per-category sort key of `_render_departure_systems`
(`key=lambda s: s.get("name", "").lower()`). -/
def byNameLe (a b : System) : Prop := a.name.toLower ≤ b.name.toLower

instance : DecidableRel byNameLe := fun a b =>
  inferInstanceAs (Decidable (a.name.toLower ≤ b.name.toLower))

/-- The `(category, sorted systems)` blocks listed by
`_render_departure_systems`: ascending category id, systems sorted
case-insensitively by name. -/
def Model.departureRows (m : Model) (checked : List Nat) : List (Nat × List System) :=
  let groups := m.departureGroups checked
  (List.insertionSort (· ≤ ·) (groups.map (·.1))).map (fun cat_id =>
    (cat_id, List.insertionSort byNameLe ((alGet cat_id groups).getD [])))

/-- The checked set handed to `_render_departure_systems` by
`make_departure_form` (the position's currently assigned systems). -/
def Model.departureChecked (m : Model) (pos_id : Nat) : List Nat :=
  m.systems_for_position pos_id

/-! ## Association-list lemmas -/

theorem alGet_alSet_self {K V : Type} [DecidableEq K] (k : K) (v : V) :
    ∀ al : List (K × V), alGet k (alSet k v al) = some v
  | [] => by simp [alGet, alSet]
  | (k', v') :: rest => by
    by_cases h : k' = k
    · simp [alGet, alSet, h]
    · simp [alGet, alSet, h, alGet_alSet_self k v rest]

theorem alGet_alSet_ne {K V : Type} [DecidableEq K] {k k' : K} (v : V) (h : k' ≠ k) :
    ∀ al : List (K × V), alGet k' (alSet k v al) = alGet k' al
  | [] => by simp [alGet, alSet, Ne.symm h]
  | (k'', v'') :: rest => by
    by_cases h2 : k'' = k
    · subst h2
      simp [alGet, alSet, Ne.symm h, h]
    · simp only [alSet, if_neg h2, alGet]
      by_cases h3 : k'' = k'
      · simp [h3]
      · simp [h3, alGet_alSet_ne v h rest]

theorem mem_alSet {K V : Type} [DecidableEq K] {k : K} {v : V} {p : K × V} :
    ∀ {al : List (K × V)}, p ∈ alSet k v al → p = (k, v) ∨ p ∈ al := by
  intro al
  induction al with
  | nil => simp [alSet]
  | cons q rest ih =>
    cases q with
    | mk k1 v1 =>
      by_cases h : k1 = k
      · simp only [alSet, if_pos h, List.mem_cons]
        rintro (rfl | hp)
        · exact Or.inl rfl
        · exact Or.inr (Or.inr hp)
      · simp only [alSet, if_neg h, List.mem_cons]
        rintro (rfl | hp)
        · exact Or.inr (Or.inl rfl)
        · rcases ih hp with h1 | h2
          · exact Or.inl h1
          · exact Or.inr (Or.inr h2)

theorem alGet_mem {K V : Type} [DecidableEq K] {k : K} {v : V} :
    ∀ {al : List (K × V)}, alGet k al = some v → (k, v) ∈ al := by
  intro al
  induction al with
  | nil => simp [alGet]
  | cons q rest ih =>
    cases q with
    | mk k' v' =>
      intro hv
      by_cases h : k' = k
      · subst h
        rw [alGet, if_pos rfl, Option.some_inj] at hv
        subst hv
        exact List.mem_cons_self _ _
      · rw [alGet, if_neg h] at hv
        exact List.mem_cons_of_mem _ (ih hv)

theorem alGet_of_mem_nodup {K V : Type} [DecidableEq K] {k : K} {v : V} :
    ∀ {al : List (K × V)}, (al.map Prod.fst).Nodup → (k, v) ∈ al → alGet k al = some v := by
  intro al
  induction al with
  | nil => simp
  | cons q rest ih =>
    cases q with
    | mk k' v' =>
      intro hnd hmem
      simp only [List.map_cons, List.nodup_cons, List.mem_map] at hnd
      rcases List.mem_cons.mp hmem with heq | hmem'
      · cases heq
        simp [alGet]
      · have hk : k' ≠ k := by
          rintro rfl
          exact hnd.1 ⟨(k', v), hmem', rfl⟩
        simp only [alGet, if_neg hk]
        exact ih hnd.2 hmem'

theorem listMaxD_ge {x : Nat} : ∀ {l : List Nat}, x ∈ l → x ≤ listMaxD l := by
  intro l
  induction l with
  | nil => simp
  | cons y rest ih =>
    intro hx
    rcases List.mem_cons.mp hx with rfl | hx'
    · exact Nat.le_max_left _ _
    · exact Nat.le_trans (ih hx') (Nat.le_max_right _ _)

/-! ## C3: `check_permission` is fail-closed -/

/-- C3: `checkPermission` is fail-closed: it denies a missing user, and with a
user present it returns allow exactly when the user's role resolves to a role
record whose permission grid stores `true` at `permissions[resource][action]`;
in every other case (unknown role, missing resource key, missing action key,
stored `false`) it denies. -/
theorem check_permission_fail_closed (m : Model) (user : Option User)
    (resource action : String) :
    m.check_permission none resource action = false ∧
    (m.check_permission user resource action = true ↔
      ∃ u role rp, user = some u ∧ alGet u.role m.roles_by_id = some role ∧
        alGet resource role.permissions = some rp ∧ alGet action rp = some true) := by
  refine ⟨rfl, ?_⟩
  cases user with
  | none => simp [Model.check_permission]
  | some u =>
    simp only [Model.check_permission, Model.get_role_by_id]
    cases hr : alGet u.role m.roles_by_id with
    | none => simp [hr]
    | some role =>
      cases hp : alGet resource role.permissions with
      | none => simp [alGet, hr, hp]
      | some rp =>
        cases ha : alGet action rp with
        | none => simp [hr, hp, ha]
        | some b => cases b <;> simp [hr, hp, ha]

/-! ## C10: `authenticate_user` treats a missing `active` field as active -/

/-- C10: `authenticate_user` succeeds exactly when the username resolves to a
record whose `active` field is absent or `true` and whose stored password
equals the hash of the supplied password or the supplied password itself; in
particular a record with no `active` field and a matching password is
returned. -/
theorem authenticate_user_spec (sha : String → String) (m : Model)
    (username password : String) (u : User) :
    (m.authenticate_user sha username password = some u ↔
      m.get_user_by_username username = some u ∧ u.active.getD true = true ∧
        (u.password = sha password ∨ u.password = password)) ∧
    (m.get_user_by_username username = some u → u.active = none →
      (u.password = sha password ∨ u.password = password) →
      m.authenticate_user sha username password = some u) := by
  constructor
  · cases hu : m.get_user_by_username username with
    | none => simp [Model.authenticate_user, hu]
    | some u' =>
      simp only [Model.authenticate_user, hu]
      by_cases hact : u'.active.getD true = true
      · by_cases hpw : u'.password = sha password ∨ u'.password = password
        · simp only [hact, if_true, if_pos hpw, Option.some.injEq]
          constructor
          · rintro rfl
            exact ⟨rfl, hact, hpw⟩
          · rintro ⟨h1, -, -⟩
            exact h1
        · simp only [hact, if_true, if_neg hpw]
          constructor
          · intro h
            exact absurd h (by simp)
          · rintro ⟨h1, -, hpw'⟩
            cases Option.some_inj.mp h1
            exact absurd hpw' hpw
      · simp only [Bool.not_eq_true] at hact
        simp only [hact, Bool.false_eq_true, if_false]
        constructor
        · intro h
          exact absurd h (by simp)
        · rintro ⟨h1, hact', -⟩
          cases Option.some_inj.mp h1
          rw [hact] at hact'
          exact absurd hact' (by simp)
  · intro hu hact hpw
    simp [Model.authenticate_user, hu, hact, hpw]

/-- Witness for C10 at a concrete model: a legacy record with no `active`
field and a plaintext-stored password authenticates. -/
theorem authenticate_user_spec_witness :
    ({ Model.init with users_by_username :=
        [(("bob"), ⟨1, ("bob"), ("pw"), ("Bob"), ("admin"), none⟩)] } : Model).authenticate_user
      (fun s => s ++ ("#")) ("bob") ("pw")
      = some ⟨1, ("bob"), ("pw"), ("Bob"), ("admin"), none⟩ :=
  (authenticate_user_spec (fun s => s ++ ("#")) _ ("bob") ("pw") _).2 (by decide) rfl
    (Or.inr rfl)

/-! ## C4: `delete_category` rejection behaviour -/

/-- Counterexample to C4 as stated: at the initial state, deleting the unknown
category id 5 is rejected even though no system has `categoryId = 5`, so
"rejected iff at least one system references it" fails for unknown ids. -/
theorem delete_category_iff_counterexample :
    (Model.init.delete_category 5).2.1 = false ∧
      Model.init.systems.any (fun s => s.categoryId = 5) = false :=
  ⟨rfl, rfl⟩

/-- C4 (amended): for a category id *present in the catalog*, deletion is
rejected iff some system still references it, and that rejection reports the
"in use" reason; an id absent from the catalog is always rejected with the
distinct "not found" reason; every rejection leaves the model unchanged. -/
theorem delete_category_spec (m : Model) (cat_id : Nat) :
    ((alGet cat_id m.categories_by_id).isSome = true →
      ((m.delete_category cat_id).2.1 = false ↔
        m.systems.any (fun s => s.categoryId = cat_id) = true)) ∧
    ((m.delete_category cat_id).2.1 = false → (m.delete_category cat_id).1 = m) ∧
    ((alGet cat_id m.categories_by_id).isSome = true →
      (m.delete_category cat_id).2.1 = false →
      (m.delete_category cat_id).2.2 = msgCatInUse) ∧
    ((alGet cat_id m.categories_by_id).isSome = false →
      (m.delete_category cat_id).2.1 = false ∧
        (m.delete_category cat_id).2.2 = msgCatNotFound) ∧
    msgCatInUse ≠ msgCatNotFound := by
  have hmsg : msgCatInUse ≠ msgCatNotFound := by decide
  by_cases hc : (alGet cat_id m.categories_by_id).isSome = true
  · by_cases hs : m.systems.any (fun s => s.categoryId = cat_id) = true
    · simp [Model.delete_category, hc, hs]
      exact hmsg
    · simp [Model.delete_category, hc, hs]
      exact hmsg
  · simp [Model.delete_category, hc]
    exact hmsg

/-- The concrete model used to witness C4: one category, one system using it. -/
def c4Model : Model :=
  { Model.init with
    categories := [⟨1, ("C")⟩], categories_by_id := [(1, ⟨1, ("C")⟩)],
    systems := [⟨1, ("S"), 1⟩] }

/-- Witness for C4 (amended): deleting the in-use category 1 of `c4Model` is
rejected and leaves the model unchanged. -/
theorem delete_category_spec_witness :
    (c4Model.delete_category 1).2.1 = false ∧ (c4Model.delete_category 1).1 = c4Model := by
  have h := delete_category_spec c4Model 1
  have hrej : (c4Model.delete_category 1).2.1 = false := (h.1 (by decide)).mpr (by decide)
  exact ⟨hrej, h.2.1 hrej⟩

/-! ## C6: `add_category` id assignment -/

/-- Counterexample to C6 as stated: add a category (it gets id 1), delete it,
add another — the new category is assigned id 1 again, the id of a previously
deleted category. -/
theorem add_category_id_reuse_counterexample :
    (((Model.init.add_category ("A")).1.delete_category
          (Model.init.add_category ("A")).2.id).1.add_category ("B")).2.id
        = (Model.init.add_category ("A")).2.id ∧
      (Model.init.add_category ("A")).2.id = 1 := by decide

/-- C6 (amended): `add_category` assigns `max(existing ids) + 1` (so id 1 on an
empty catalog), and the assigned id differs from the id of every category
currently in the catalog; ids of previously deleted categories may be reused
(no tombstones are kept), as the counterexample shows. -/
theorem add_category_spec (m : Model) (name : String) :
    (m.add_category name).2.id = listMaxD (m.categories.map (·.id)) + 1 ∧
    (m.categories = [] → (m.add_category name).2.id = 1) ∧
    ∀ c ∈ m.categories, c.id ≠ (m.add_category name).2.id := by
  refine ⟨rfl, ?_, ?_⟩
  · intro h
    simp [Model.add_category, h, listMaxD]
  · intro c hc
    have : c.id ≤ listMaxD (m.categories.map (·.id)) :=
      listMaxD_ge (List.mem_map_of_mem _ hc)
    have hlt : c.id < (m.add_category name).2.id := by
      show c.id < listMaxD (m.categories.map (·.id)) + 1
      omega
    exact Nat.ne_of_lt hlt

/-- Witness for C6 (amended) at the initial state: the first category gets
id 1. -/
theorem add_category_spec_witness :
    (Model.init.add_category ("X")).2.id = 1 :=
  (add_category_spec Model.init ("X")).2.1 rfl

/-! ## C2: `set_system_for_position` round trip -/

theorem filter_ne_of_not_mem {x : Nat} :
    ∀ {l : List Nat}, x ∉ l → l.filter (fun i => i ≠ x) = l := by
  intro l hx
  apply List.filter_eq_self.mpr
  intro a ha
  have hax : a ≠ x := fun h => hx (h ▸ ha)
  simp [hax]

/-- Counterexample to C2 as stated: from the initial (empty) matrix,
`set(1, 2, true)` then `set(1, 2, false)` leaves position key `"1"` present
and mapped to the empty list, while before both calls the key was absent. -/
theorem set_system_round_trip_counterexample :
    alGet ("1")
        (((Model.init.set_system_for_position 1 2 true).set_system_for_position
            1 2 false).matrix) = some [] ∧
      alGet ("1") Model.init.matrix = none := by decide

/-- The matrix written by an enabling call, as an equation. -/
theorem set_system_matrix_true (m : Model) (pos_id sys_id : Nat) :
    (m.set_system_for_position pos_id sys_id true).matrix =
      alSet (toString pos_id)
        (List.insertionSort (· ≤ ·)
          (if sys_id ∈ ((alGet (toString pos_id) m.matrix).getD []).dedup
           then ((alGet (toString pos_id) m.matrix).getD []).dedup
           else ((alGet (toString pos_id) m.matrix).getD []).dedup ++ [sys_id]))
        m.matrix := rfl

/-- The matrix written by a disabling call, as an equation. -/
theorem set_system_matrix_false (m : Model) (pos_id sys_id : Nat) :
    (m.set_system_for_position pos_id sys_id false).matrix =
      alSet (toString pos_id)
        (List.insertionSort (· ≤ ·)
          ((((alGet (toString pos_id) m.matrix).getD []).dedup).filter
            (fun i => i ≠ sys_id)))
        m.matrix := rfl

/-- C2 (amended): `set(p, s, true)` then `set(p, s, false)` restores `p`'s
stored list exactly when the prior entry exists, is strictly sorted (the
normal form every write produces) and does not contain `s`; when `p`'s key was
absent before, the round trip leaves the key present mapping to the empty
list — the key is not pruned (and an entry containing `s` beforehand loses it). -/
theorem set_system_round_trip (m : Model) (pos_id sys_id : Nat) (L : List Nat) :
    (alGet (toString pos_id) m.matrix = some L → List.Sorted (· < ·) L → sys_id ∉ L →
      alGet (toString pos_id)
          (((m.set_system_for_position pos_id sys_id true).set_system_for_position
              pos_id sys_id false).matrix) = some L) ∧
    (alGet (toString pos_id) m.matrix = none →
      alGet (toString pos_id)
          (((m.set_system_for_position pos_id sys_id true).set_system_for_position
              pos_id sys_id false).matrix) = some []) := by
  constructor
  · intro hL hsort hmem
    have hnd : L.Nodup := hsort.nodup
    have hd : L.dedup = L := List.dedup_eq_self.mpr hnd
    have hndS1 : (List.insertionSort (· ≤ ·) (L ++ [sys_id])).Nodup := by
      refine ((List.perm_insertionSort _ _).nodup_iff).mpr ?_
      simp [List.nodup_append, hnd, hmem]
    have hdS1 : (List.insertionSort (· ≤ ·) (L ++ [sys_id])).dedup
        = List.insertionSort (· ≤ ·) (L ++ [sys_id]) := List.dedup_eq_self.mpr hndS1
    have hfilter : List.Perm
        ((List.insertionSort (· ≤ ·) (L ++ [sys_id])).filter (fun i => i ≠ sys_id)) L := by
      have hperm := (List.perm_insertionSort (· ≤ ·) (L ++ [sys_id])).filter
        (fun i => i ≠ sys_id)
      rw [List.filter_append, filter_ne_of_not_mem hmem] at hperm
      simpa using hperm
    have hS2 : List.insertionSort (· ≤ ·)
        ((List.insertionSort (· ≤ ·) (L ++ [sys_id])).filter (fun i => i ≠ sys_id)) = L :=
      List.eq_of_perm_of_sorted ((List.perm_insertionSort _ _).trans hfilter)
        (List.sorted_insertionSort _ _) hsort.le_of_lt
    rw [set_system_matrix_false, set_system_matrix_true, hL]
    simp only [Option.getD_some, hd, if_neg hmem]
    rw [alGet_alSet_self]
    rw [alGet_alSet_self, Option.getD_some, hdS1, hS2]
  · intro hnone
    have hempty : (List.insertionSort (· ≤ ·) [sys_id]).dedup.filter (fun i => i ≠ sys_id)
        = [] := by
      simp [List.insertionSort, List.orderedInsert]
    rw [set_system_matrix_false, set_system_matrix_true, hnone]
    simp only [Option.getD_none, List.dedup_nil, List.not_mem_nil, if_false, List.nil_append]
    rw [alGet_alSet_self]
    rw [alGet_alSet_self, Option.getD_some, hempty]
    rfl

/-- Witness for C2 (amended), absent-key case at the initial model. -/
theorem set_system_round_trip_witness :
    alGet ("1")
        (((Model.init.set_system_for_position 1 2 true).set_system_for_position
            1 2 false).matrix) = some [] :=
  (set_system_round_trip Model.init 1 2 []).2 rfl

/-! ## C1: `delete_system` crashes on any assigned system -/

theorem findIdx?_pyIntEqStr (x : String) :
    ∀ (l : List Nat) (n : Nat), List.findIdx? (fun i => pyIntEqStr i x) l n = none := by
  intro l
  induction l with
  | nil => intro n; rfl
  | cons a rest ih =>
    intro n
    simp only [List.findIdx?, pyIntEqStr, cond_false]
    exact ih (n + 1)

/-- `list.remove(str(sys_id))` on a list of ints always raises. -/
theorem pyListRemoveStr_error (x : String) (l : List Nat) :
    pyListRemoveStr x l = .error ("ValueError: list.remove(x): x not in list") := by
  rw [pyListRemoveStr, findIdx?_pyIntEqStr]

theorem deleteSysFromMatrix_error (sys_id : Nat) :
    ∀ (mat : List (String × List Nat)) (p : String × List Nat),
      p ∈ mat → sys_id ∈ p.2 →
      deleteSysFromMatrix sys_id mat =
        .error ("ValueError: list.remove(x): x not in list") := by
  intro mat
  induction mat with
  | nil => intro p hp; exact absurd hp (List.not_mem_nil p)
  | cons q rest ih =>
    intro p hp hmem
    cases q with
    | mk k l =>
      by_cases hl : sys_id ∈ l
      · simp [deleteSysFromMatrix, hl, pyListRemoveStr_error]
      · rcases List.mem_cons.mp hp with rfl | hp'
        · exact absurd hmem hl
        · simp [deleteSysFromMatrix, hl, ih p hp' hmem, Except.map]

/-- C1 (the code bug): for any system present in `systems_by_id` that is still
assigned to some position in the matrix, `delete_system` raises `ValueError`
instead of cascading — `matrix[pos_key].remove(str(sys_id))` looks for a
*string* in a list of *ints* (which every write stores), so it never finds it. -/
theorem delete_system_raises (m : Model) (sys_id : Nat) (sys : System)
    (hs : alGet sys_id m.systems_by_id = some sys)
    (p : String × List Nat) (hp : p ∈ m.matrix) (hmem : sys_id ∈ p.2) :
    m.delete_system sys_id = .error ("ValueError: list.remove(x): x not in list") := by
  unfold Model.delete_system
  rw [hs]
  simp only [deleteSysFromMatrix_error sys_id m.matrix p hp hmem]

/-- The concrete failing input for C1: one system (id 1) assigned to position 1
(the matrix state `{"1": [1]}` that `set_system_for_position` itself writes). -/
def c1Model : Model :=
  { Model.init with
    systems := [⟨1, ("S"), 1⟩], systems_by_id := [(1, ⟨1, ("S"), 1⟩)],
    systems_by_cat := [(1, [⟨1, ("S"), 1⟩])], matrix := [(("1"), [1])] }

/-- Witness for C1: deleting system 1 of `c1Model` raises `ValueError`. -/
theorem delete_system_raises_witness :
    c1Model.delete_system 1 = .error ("ValueError: list.remove(x): x not in list") :=
  delete_system_raises c1Model 1 ⟨1, ("S"), 1⟩ (by decide) ((("1"), [1])) (by decide)
    (by decide)

/-! ## C8: the matrix invariant -/

/-- The claimed invariant: every stored matrix entry is strictly increasing
(hence duplicate-free) and references only systems present in the catalog. -/
def matrixInv (m : Model) : Prop :=
  ∀ p ∈ m.matrix, List.Sorted (· < ·) p.2 ∧ p.2.Nodup ∧
    ∀ i ∈ p.2, i ∈ m.systems.map (·.id)

/-- Counterexample to C8 as stated: `set_system_for_position(1, 7, true)` is a
matrix operation the code accepts with no existence check, and from the
initial state it stores an entry referencing system 7 while the catalog is
empty. -/
theorem matrix_invariant_counterexample :
    ((("1"), [7]) ∈ (Model.init.set_system_for_position 1 7 true).matrix) ∧
      (Model.init.set_system_for_position 1 7 true).systems = [] := by decide

/-- The list a `set_system_for_position` call sorts and stores. -/
def pyUpdatedEntry (m : Model) (pos_id sys_id : Nat) (enabled : Bool) : List Nat :=
  let current := ((alGet (toString pos_id) m.matrix).getD []).dedup
  if enabled then (if sys_id ∈ current then current else current ++ [sys_id])
  else current.filter (fun i => i ≠ sys_id)

theorem set_system_matrix_eq (m : Model) (pos_id sys_id : Nat) (enabled : Bool) :
    (m.set_system_for_position pos_id sys_id enabled).matrix =
      alSet (toString pos_id)
        (List.insertionSort (· ≤ ·) (pyUpdatedEntry m pos_id sys_id enabled))
        m.matrix := by
  cases enabled <;> rfl

theorem pyUpdatedEntry_nodup (m : Model) (pos_id sys_id : Nat) (enabled : Bool) :
    (pyUpdatedEntry m pos_id sys_id enabled).Nodup := by
  unfold pyUpdatedEntry
  cases enabled
  · exact (List.nodup_dedup _).filter _
  · by_cases hmem : sys_id ∈ ((alGet (toString pos_id) m.matrix).getD []).dedup
    · simpa [hmem] using List.nodup_dedup _
    · simp only [if_pos, hmem, if_false, if_neg hmem]
      simp [List.nodup_append, List.nodup_dedup, hmem]

theorem pyUpdatedEntry_subset (m : Model) (pos_id sys_id : Nat) (enabled : Bool)
    (i : Nat) (hi : i ∈ pyUpdatedEntry m pos_id sys_id enabled) :
    i ∈ (alGet (toString pos_id) m.matrix).getD [] ∨ i = sys_id := by
  unfold pyUpdatedEntry at hi
  cases enabled
  · simp only [if_neg Bool.false_ne_true] at hi
    exact Or.inl (List.mem_dedup.mp (List.mem_of_mem_filter hi))
  · simp only [if_pos] at hi
    by_cases hmem : sys_id ∈ ((alGet (toString pos_id) m.matrix).getD []).dedup
    · rw [if_pos hmem] at hi
      exact Or.inl (List.mem_dedup.mp hi)
    · rw [if_neg hmem] at hi
      rcases List.mem_append.mp hi with h | h
      · exact Or.inl (List.mem_dedup.mp h)
      · exact Or.inr (List.mem_singleton.mp h)

/-- A successful `deleteSysFromMatrix` pass leaves the matrix unchanged and
certifies that no entry contained the id (otherwise it would have raised). -/
theorem deleteSysFromMatrix_ok (sys_id : Nat) :
    ∀ (mat mat' : List (String × List Nat)),
      deleteSysFromMatrix sys_id mat = .ok mat' →
      mat' = mat ∧ ∀ p ∈ mat, sys_id ∉ p.2 := by
  intro mat
  induction mat with
  | nil =>
    intro mat' h
    simp only [deleteSysFromMatrix] at h
    cases h
    exact ⟨rfl, by simp⟩
  | cons q rest ih =>
    intro mat' h
    cases q with
    | mk k l =>
      by_cases hl : sys_id ∈ l
      · rw [deleteSysFromMatrix, if_pos hl, pyListRemoveStr_error] at h
        cases h
      · rw [deleteSysFromMatrix, if_neg hl] at h
        cases hrec : deleteSysFromMatrix sys_id rest with
        | error e => rw [hrec] at h; cases h
        | ok r =>
          rw [hrec] at h
          obtain ⟨hr, hall⟩ := ih r hrec
          cases h
          refine ⟨by rw [hr], ?_⟩
          intro p hp
          rcases List.mem_cons.mp hp with rfl | hp'
          · exact hl
          · exact hall p hp'

/-- What a *successful* `delete_system` did: either the id was unknown and the
model is unchanged, or the system was removed from the catalog and the matrix
is untouched because no entry referenced the id. -/
theorem delete_system_ok (m m' : Model) (sys_id : Nat) (ok : Bool) (msg : String)
    (h : m.delete_system sys_id = .ok (m', ok, msg)) :
    (m' = m) ∨
    (m'.matrix = m.matrix ∧ m'.systems = m.systems.filter (fun s => s.id ≠ sys_id) ∧
      ∀ p ∈ m.matrix, sys_id ∉ p.2) := by
  unfold Model.delete_system at h
  cases hg : alGet sys_id m.systems_by_id with
  | none =>
    rw [hg] at h
    simp only [Except.ok.injEq, Prod.mk.injEq] at h
    exact Or.inl h.1.symm
  | some sys =>
    rw [hg] at h
    cases hd : deleteSysFromMatrix sys_id m.matrix with
    | error e => rw [hd] at h; cases h
    | ok mat' =>
      rw [hd] at h
      obtain ⟨hmat, hall⟩ := deleteSysFromMatrix_ok sys_id m.matrix mat' hd
      simp only [Except.ok.injEq, Prod.mk.injEq] at h
      refine Or.inr ?_
      rw [← h.1]
      exact ⟨by simpa using hmat, rfl, hall⟩

/-- `matrixInv` only depends on the matrix and the systems list. -/
theorem matrixInv_congr {m m' : Model} (hm : m'.matrix = m.matrix)
    (hs : m'.systems = m.systems) (h : matrixInv m) : matrixInv m' := by
  intro p hp
  rw [hm] at hp
  obtain ⟨a, b, c⟩ := h p hp
  exact ⟨a, b, fun i hi => by rw [hs]; exact c i hi⟩

theorem delete_category_preserves (m : Model) (cat_id : Nat) :
    (m.delete_category cat_id).1.matrix = m.matrix ∧
      (m.delete_category cat_id).1.systems = m.systems := by
  by_cases h1 : (alGet cat_id m.categories_by_id).isSome = true
  · by_cases h2 : m.systems.any (fun s => s.categoryId = cat_id) = true
    · simp [Model.delete_category, h1, h2]
    · simp [Model.delete_category, h1, h2]
  · simp [Model.delete_category, h1]

/-- One model mutation, in the amended reading of C8: matrix writes must name
a system currently in the catalog, and system deletions are the ones that
return (the others raise, see C1). -/
inductive Step : Model → Model → Prop
  | set (m : Model) (pos_id sys_id : Nat) (enabled : Bool)
      (hs : sys_id ∈ m.systems.map (·.id)) :
      Step m (m.set_system_for_position pos_id sys_id enabled)
  | addSys (m : Model) (name : String) (cat : Nat) :
      Step m (m.add_system name cat).1
  | addCat (m : Model) (name : String) :
      Step m (m.add_category name).1
  | delCat (m : Model) (cat_id : Nat) :
      Step m (m.delete_category cat_id).1
  | delSys (m m' : Model) (sys_id : Nat) (ok : Bool) (msg : String)
      (h : m.delete_system sys_id = .ok (m', ok, msg)) :
      Step m m'

/-- States reachable from the fresh-start state by those mutations. -/
inductive Reachable : Model → Prop
  | init : Reachable Model.init
  | step {m m' : Model} : Reachable m → Step m m' → Reachable m'

/-- C8 (amended): from the initial state, after any sequence of
`set_system_for_position` calls whose system id exists in the catalog,
`add_system` / `add_category` / `delete_category` calls, and `delete_system`
calls that return (rather than raise), every stored matrix entry is strictly
increasing, duplicate-free, and references only systems in the catalog. -/
theorem matrix_invariant (m : Model) (h : Reachable m) : matrixInv m := by
  induction h with
  | init => intro p hp; exact absurd hp (List.not_mem_nil p)
  | @step m m' _ hstep ih =>
    cases hstep with
    | set pos_id sys_id enabled hs =>
      intro p hp
      rw [set_system_matrix_eq] at hp
      rcases mem_alSet hp with rfl | hp'
      · have hperm := List.perm_insertionSort (· ≤ ·) (pyUpdatedEntry m pos_id sys_id enabled)
        have hnd : (List.insertionSort (· ≤ ·)
            (pyUpdatedEntry m pos_id sys_id enabled)).Nodup :=
          hperm.nodup_iff.mpr (pyUpdatedEntry_nodup m pos_id sys_id enabled)
        have hsorted : List.Sorted (· < ·)
            (List.insertionSort (· ≤ ·) (pyUpdatedEntry m pos_id sys_id enabled)) :=
          (List.sorted_insertionSort _ _).lt_of_le hnd
        refine ⟨hsorted, hnd, ?_⟩
        intro i hi
        have hi' := hperm.mem_iff.mp hi
        rcases pyUpdatedEntry_subset m pos_id sys_id enabled i hi' with hold | rfl
        · cases hL : alGet (toString pos_id) m.matrix with
          | none => rw [hL] at hold; cases hold
          | some L =>
            rw [hL] at hold
            simp only [Option.getD_some] at hold
            obtain ⟨-, -, hrefs⟩ := ih _ (alGet_mem hL)
            exact hrefs i hold
        · exact hs
      · obtain ⟨a, b, c⟩ := ih p hp'
        exact ⟨a, b, c⟩
    | addSys name cat =>
      intro p hp
      obtain ⟨a, b, c⟩ := ih p hp
      refine ⟨a, b, fun i hi => ?_⟩
      have hmm := c i hi
      have hsys : (m.add_system name cat).1.systems =
          m.systems ++ [⟨listMaxD (m.systems.map (fun s => s.id)) + 1, name, cat⟩] := rfl
      rw [hsys, List.map_append]
      exact List.mem_append_left _ hmm
    | addCat name => exact matrixInv_congr rfl rfl ih
    | delCat cat_id =>
      exact matrixInv_congr (delete_category_preserves m cat_id).1
        (delete_category_preserves m cat_id).2 ih
    | delSys =>
      rename_i sys_id ok msg hok
      rcases delete_system_ok m m' sys_id ok msg hok with rfl | ⟨hmat, hsys, hnone⟩
      · exact ih
      · intro p hp
        rw [hmat] at hp
        obtain ⟨a, b, c⟩ := ih p hp
        refine ⟨a, b, fun i hi => ?_⟩
        have hid := c i hi
        have hne : i ≠ sys_id := fun heq => (hnone p hp) (heq ▸ hi)
        rw [hsys]
        simp only [List.mem_map] at hid ⊢
        obtain ⟨s, hs1, hs2⟩ := hid
        refine ⟨s, List.mem_filter.mpr ⟨hs1, ?_⟩, hs2⟩
        simp [hs2, hne]

/-- Witness for C8 at a concrete reachable state: add a system (id 1), then
assign it to position 1. -/
theorem matrix_invariant_witness :
    matrixInv ((Model.init.add_system ("S") 1).1.set_system_for_position 1 1 true) :=
  matrix_invariant _
    (Reachable.step (Reachable.step Reachable.init (Step.addSys Model.init ("S") 1))
      (Step.set _ 1 1 true (by decide)))

/-! ## C5: HTML escaping -/

theorem pyReplaceChar_append (pat : Char) (rep : List Char) :
    ∀ a b : List Char,
      pyReplaceChar pat rep (a ++ b) = pyReplaceChar pat rep a ++ pyReplaceChar pat rep b := by
  intro a b
  induction a with
  | nil => rfl
  | cons c rest ih => simp [pyReplaceChar, ih]

theorem escapeHtmlL_append (a b : List Char) :
    escapeHtmlL (a ++ b) = escapeHtmlL a ++ escapeHtmlL b := by
  unfold escapeHtmlL
  rw [pyReplaceChar_append, pyReplaceChar_append, pyReplaceChar_append, pyReplaceChar_append]

theorem escapeHtmlL_single (c : Char) : escapeHtmlL [c] = escChar c := by
  by_cases h1 : c = '&'
  · subst h1; rfl
  · by_cases h2 : c = '<'
    · subst h2; rfl
    · by_cases h3 : c = '>'
      · subst h3; rfl
      · by_cases h4 : c = '"'
        · subst h4; rfl
        · simp [escapeHtmlL, pyReplaceChar, escChar, h1, h2, h3, h4]

/-- `_escape_html` is exactly the per-character entity translation: every
occurrence of `&`, `<`, `>`, `"` in the input becomes its entity. -/
theorem escapeHtmlL_eq_flatten (s : List Char) :
    escapeHtmlL s = (s.map escChar).flatten := by
  induction s with
  | nil => rfl
  | cons c rest ih =>
    have h : escapeHtmlL (c :: rest) = escapeHtmlL [c] ++ escapeHtmlL rest :=
      escapeHtmlL_append [c] rest
    rw [h, escapeHtmlL_single, ih, List.map_cons, List.flatten_cons]

theorem escChar_no_markup (c : Char) :
    ∀ d ∈ escChar c, d ≠ '<' ∧ d ≠ '>' ∧ d ≠ '"' := by
  intro d hd
  unfold escChar at hd
  by_cases h1 : c = '&'
  · rw [if_pos h1] at hd
    have hd' : d ∈ ['&', 'a', 'm', 'p', ';'] := hd
    simp only [List.mem_cons, List.not_mem_nil, or_false] at hd'
    rcases hd' with rfl | rfl | rfl | rfl | rfl <;> exact ⟨by decide, by decide, by decide⟩
  · rw [if_neg h1] at hd
    by_cases h2 : c = '<'
    · rw [if_pos h2] at hd
      have hd' : d ∈ ['&', 'l', 't', ';'] := hd
      simp only [List.mem_cons, List.not_mem_nil, or_false] at hd'
      rcases hd' with rfl | rfl | rfl | rfl <;> exact ⟨by decide, by decide, by decide⟩
    · rw [if_neg h2] at hd
      by_cases h3 : c = '>'
      · rw [if_pos h3] at hd
        have hd' : d ∈ ['&', 'g', 't', ';'] := hd
        simp only [List.mem_cons, List.not_mem_nil, or_false] at hd'
        rcases hd' with rfl | rfl | rfl | rfl <;> exact ⟨by decide, by decide, by decide⟩
      · rw [if_neg h3] at hd
        by_cases h4 : c = '"'
        · rw [if_pos h4] at hd
          have hd' : d ∈ ['&', 'q', 'u', 'o', 't', ';'] := hd
          simp only [List.mem_cons, List.not_mem_nil, or_false] at hd'
          rcases hd' with rfl | rfl | rfl | rfl | rfl | rfl <;>
            exact ⟨by decide, by decide, by decide⟩
        · rw [if_neg h4] at hd
          rcases List.mem_singleton.mp hd with rfl
          exact ⟨h2, h3, h4⟩

theorem escapeHtmlL_no_markup (s : List Char) :
    ∀ d ∈ escapeHtmlL s, d ≠ '<' ∧ d ≠ '>' ∧ d ≠ '"' := by
  intro d hd
  rw [escapeHtmlL_eq_flatten] at hd
  rcases List.mem_flatten.mp hd with ⟨l, hl, hdl⟩
  rcases List.mem_map.mp hl with ⟨c, -, rfl⟩
  exact escChar_no_markup c d hdl

set_option maxHeartbeats 1000000 in
theorem unescape_cons_of_ne (c : Char) (t : List Char) (hc : c ≠ '&') :
    unescapeHtmlL (c :: t) = c :: unescapeHtmlL t := by
  rw [unescapeHtmlL.eq_def]
  split
  · rename_i h; injection h with h1 _; exact absurd h1 hc
  · rename_i h; injection h with h1 _; exact absurd h1 hc
  · rename_i h; injection h with h1 _; exact absurd h1 hc
  · rename_i h; injection h with h1 _; exact absurd h1 hc
  · rename_i h
    injection h with h1 h2
    subst h1
    subst h2
    rfl
  · rename_i h; exact absurd h (List.cons_ne_nil c t)

/-- Decoding inverts encoding: `_escape_html` loses no information and the
four reserved characters round-trip. -/
theorem unescape_escape (s : List Char) :
    unescapeHtmlL (escapeHtmlL s) = s := by
  induction s with
  | nil => rfl
  | cons c rest ih =>
    have h : escapeHtmlL (c :: rest) = escapeHtmlL [c] ++ escapeHtmlL rest :=
      escapeHtmlL_append [c] rest
    rw [h, escapeHtmlL_single]
    by_cases h1 : c = '&'
    · subst h1
      have e : unescapeHtmlL ('&' :: 'a' :: 'm' :: 'p' :: ';' :: escapeHtmlL rest)
          = '&' :: unescapeHtmlL (escapeHtmlL rest) := rfl
      rw [show escChar '&' ++ escapeHtmlL rest
            = '&' :: 'a' :: 'm' :: 'p' :: ';' :: escapeHtmlL rest from rfl, e, ih]
    · by_cases h2 : c = '<'
      · subst h2
        have e : unescapeHtmlL ('&' :: 'l' :: 't' :: ';' :: escapeHtmlL rest)
            = '<' :: unescapeHtmlL (escapeHtmlL rest) := rfl
        rw [show escChar '<' ++ escapeHtmlL rest
              = '&' :: 'l' :: 't' :: ';' :: escapeHtmlL rest from rfl, e, ih]
      · by_cases h3 : c = '>'
        · subst h3
          have e : unescapeHtmlL ('&' :: 'g' :: 't' :: ';' :: escapeHtmlL rest)
              = '>' :: unescapeHtmlL (escapeHtmlL rest) := rfl
          rw [show escChar '>' ++ escapeHtmlL rest
                = '&' :: 'g' :: 't' :: ';' :: escapeHtmlL rest from rfl, e, ih]
        · by_cases h4 : c = '"'
          · subst h4
            have e : unescapeHtmlL ('&' :: 'q' :: 'u' :: 'o' :: 't' :: ';' :: escapeHtmlL rest)
                = '"' :: unescapeHtmlL (escapeHtmlL rest) := rfl
            rw [show escChar '"' ++ escapeHtmlL rest
                  = '&' :: 'q' :: 'u' :: 'o' :: 't' :: ';' :: escapeHtmlL rest from rfl, e, ih]
          · have hesc : escChar c = [c] := by simp [escChar, h1, h2, h3, h4]
            rw [hesc]
            show unescapeHtmlL (c :: escapeHtmlL rest) = c :: rest
            rw [unescape_cons_of_ne c _ h1, ih]

/-- C5: every occurrence of `&`, `<`, `>`, `"` in a user-supplied name is
entity-escaped by `_escape_html` (the translation is exactly per-character),
the escaped text contains no raw `<`, `>` or `"` — so splicing it into a value
attribute, a checkbox label or a checklist row cannot open or close markup or
break the attribute quoting — and the encoding is invertible (round-trips). -/
theorem escape_html_spec (s : String) :
    (FormGenerator.escape_html s).data = (s.data.map escChar).flatten ∧
    (∀ d ∈ (FormGenerator.escape_html s).data, d ≠ '<' ∧ d ≠ '>' ∧ d ≠ '"') ∧
    unescapeHtmlL (FormGenerator.escape_html s).data = s.data := by
  refine ⟨?_, ?_, ?_⟩
  · exact escapeHtmlL_eq_flatten s.data
  · exact escapeHtmlL_no_markup s.data
  · exact unescape_escape s.data

/-- Witness for C5 on the concrete name `<i&"j>`: the escape equals the
per-character translation, a character of the output is not raw markup, and
decoding restores the original. -/
theorem escape_html_spec_witness :
    (FormGenerator.escape_html ("<i&\"j>")).data
        = (("<i&\"j>").data.map escChar).flatten ∧
      ('&' ≠ '<' ∧ '&' ≠ '>' ∧ '&' ≠ '"') ∧
      unescapeHtmlL (FormGenerator.escape_html ("<i&\"j>")).data = ("<i&\"j>").data := by
  obtain ⟨h1, h2, h3⟩ := escape_html_spec ("<i&\"j>")
  exact ⟨h1, h2 '&' (by decide), h3⟩

/-! ## C7: which systems the generated documents list -/

/-- Consistency of the `systems_by_cat` index with the `systems` list, as the
`Model` constructor builds it and every mutation maintains it: distinct
category keys, and the grouped lists partition the catalog. -/
def sbcConsistent (m : Model) : Prop :=
  (m.systems_by_cat.map Prod.fst).Nodup ∧
  List.Perm (m.systems_by_cat.flatMap (fun p => p.2)) m.systems

/-- Consistency of the `systems_by_id` index: distinct keys, each mapping to a
record carrying that id. -/
def sbidConsistent (m : Model) : Prop :=
  (m.systems_by_id.map Prod.fst).Nodup ∧
  ∀ p ∈ m.systems_by_id, p.2.id = p.1

theorem alGet_cons_ne {V : Type} (k0 k : Nat) (v0 : V) (rest : List (Nat × V))
    (h : k0 ≠ k) : alGet k ((k0, v0) :: rest) = alGet k rest := by
  simp [alGet, h]

theorem flatMap_keys_eq {β : Type} (g : System → β) :
    ∀ (al : List (Nat × List System)), (al.map Prod.fst).Nodup →
      (al.map Prod.fst).flatMap (fun k => ((alGet k al).getD []).map g)
        = al.flatMap (fun p => p.2.map g) := by
  intro al
  induction al with
  | nil => intro _; rfl
  | cons q rest ih =>
    intro hnd
    cases q with
    | mk k0 v0 =>
      simp only [List.map_cons, List.nodup_cons, List.mem_map] at hnd
      obtain ⟨hk0, hndrest⟩ := hnd
      have h1 : alGet k0 ((k0, v0) :: rest) = some v0 := by simp [alGet]
      have h2 : ∀ k ∈ rest.map Prod.fst,
          ((alGet k ((k0, v0) :: rest)).getD []).map g
            = ((alGet k rest).getD []).map g := by
        intro k hk
        have hne : k0 ≠ k := by
          rintro rfl
          rcases List.mem_map.mp hk with ⟨p, hp, hfst⟩
          exact hk0 ⟨p, hp, hfst⟩
        rw [alGet_cons_ne _ _ _ _ hne]
      show ((k0 :: rest.map Prod.fst).flatMap
          (fun k => ((alGet k ((k0, v0) :: rest)).getD []).map g))
        = v0.map g ++ rest.flatMap (fun p => p.2.map g)
      rw [List.flatMap_cons, h1]
      rw [List.flatMap_congr h2, ih hndrest]
      rfl

/-- The rows of `_render_system_sections` are, up to the category ordering, the
grouped systems paired with their checked flag. -/
theorem sectionRows_perm (al : List (Nat × List System)) (checked : List Nat)
    (hnd : (al.map Prod.fst).Nodup) :
    List.Perm (sectionRows al checked)
      (al.flatMap (fun p => p.2.map (fun s => (s, decide (s.id ∈ checked))))) := by
  unfold sectionRows
  have hperm : List.Perm (List.insertionSort (· ≤ ·) (al.map Prod.fst)) (al.map Prod.fst) :=
    List.perm_insertionSort _ _
  have h := List.Perm.flatMap_right
    (fun k => ((alGet k al).getD []).map (fun s => (s, decide (s.id ∈ checked)))) hperm
  rw [flatMap_keys_eq _ al hnd] at h
  exact h

theorem sectionRows_flag (al : List (Nat × List System)) (checked : List Nat) :
    ∀ r ∈ sectionRows al checked, r.2 = decide (r.1.id ∈ checked) := by
  intro r hr
  unfold sectionRows at hr
  rcases List.mem_flatMap.mp hr with ⟨k, -, hk⟩
  rcases List.mem_map.mp hk with ⟨s, -, rfl⟩
  rfl

theorem map_fst_pairs (l : List System) (checked : List Nat) :
    (l.map (fun s => (s, decide (s.id ∈ checked)))).map Prod.fst = l := by
  induction l with
  | nil => rfl
  | cons a t ih =>
    simp only [List.map_cons, ih]

theorem map_fst_flatMap_pairs (al : List (Nat × List System)) (checked : List Nat) :
    (al.flatMap (fun p => p.2.map (fun s => (s, decide (s.id ∈ checked))))).map Prod.fst
      = al.flatMap (fun p => p.2) := by
  induction al with
  | nil => rfl
  | cons q rest ih =>
    rw [List.flatMap_cons, List.map_append, ih, map_fst_pairs, List.flatMap_cons]

theorem filterByChecked_flatMap (checked : List Nat) :
    ∀ sbc : List (Nat × List System),
      (filterByChecked sbc checked).flatMap (fun p => p.2)
        = (sbc.flatMap (fun p => p.2)).filter (fun s => decide (s.id ∈ checked)) := by
  intro sbc
  induction sbc with
  | nil => rfl
  | cons q rest ih =>
    by_cases hf : q.2.filter (fun s => decide (s.id ∈ checked)) = []
    · have heq : filterByChecked (q :: rest) checked = filterByChecked rest checked := by
        simp only [filterByChecked, List.filterMap_cons]
        rw [if_pos hf]
      rw [heq, ih, List.flatMap_cons, List.filter_append, hf, List.nil_append]
    · have heq : filterByChecked (q :: rest) checked
          = (q.1, q.2.filter (fun s => decide (s.id ∈ checked)))
              :: filterByChecked rest checked := by
        simp only [filterByChecked, List.filterMap_cons]
        rw [if_neg hf]
      rw [heq, List.flatMap_cons, ih, List.flatMap_cons, List.filter_append]

theorem filterByChecked_keys_sublist (checked : List Nat) :
    ∀ sbc : List (Nat × List System),
      ((filterByChecked sbc checked).map Prod.fst).Sublist (sbc.map Prod.fst) := by
  intro sbc
  induction sbc with
  | nil => simp [filterByChecked]
  | cons q rest ih =>
    by_cases hf : q.2.filter (fun s => decide (s.id ∈ checked)) = []
    · have heq : filterByChecked (q :: rest) checked = filterByChecked rest checked := by
        simp only [filterByChecked, List.filterMap_cons]
        rw [if_pos hf]
      rw [heq]
      exact ih.trans (List.sublist_cons_self _ _)
    · have heq : filterByChecked (q :: rest) checked
          = (q.1, q.2.filter (fun s => decide (s.id ∈ checked)))
              :: filterByChecked rest checked := by
        simp only [filterByChecked, List.filterMap_cons]
        rw [if_neg hf]
      rw [heq]
      simpa using ih

theorem filterByChecked_mem_checked (checked : List Nat) (sbc : List (Nat × List System)) :
    ∀ p ∈ filterByChecked sbc checked, ∀ s ∈ p.2, decide (s.id ∈ checked) = true := by
  intro p hp s hs
  simp only [filterByChecked, List.mem_filterMap] at hp
  rcases hp with ⟨q, -, hq⟩
  by_cases hf : q.2.filter (fun s => decide (s.id ∈ checked)) = []
  · rw [if_pos hf] at hq
    cases hq
  · rw [if_neg hf] at hq
    have hpe := Option.some_inj.mp hq
    subst hpe
    have hs2 : s ∈ q.2.filter (fun s => decide (s.id ∈ checked)) := hs
    have h3 := List.of_mem_filter hs2
    simpa using h3

/-! departure-form lemmas -/

theorem alSet_keys {V : Type} (k : Nat) (v : V) :
    ∀ al : List (Nat × V),
      (alSet k v al).map Prod.fst
        = if k ∈ al.map Prod.fst then al.map Prod.fst else al.map Prod.fst ++ [k] := by
  intro al
  induction al with
  | nil => simp [alSet]
  | cons q rest ih =>
    cases q with
    | mk k0 v0 =>
      by_cases h : k0 = k
      · subst h
        simp [alSet]
      · have hne : ¬(k = k0) := fun hh => h hh.symm
        simp only [alSet, if_neg h, List.map_cons, List.mem_cons, hne, false_or, ih]
        by_cases hk : k ∈ rest.map Prod.fst
        · simp [hk]
        · simp [hk]

theorem alSet_append_flatMap (k : Nat) (s : System) :
    ∀ (al : List (Nat × List System)) (l : List System),
      (al.map Prod.fst).Nodup → alGet k al = some l →
      List.Perm ((alSet k (l ++ [s]) al).flatMap (fun p => p.2))
        (al.flatMap (fun p => p.2) ++ [s]) := by
  intro al
  induction al with
  | nil => intro l _ h; simp [alGet] at h
  | cons q rest ih =>
    intro l hnd hget
    cases q with
    | mk k0 v0 =>
      simp only [List.map_cons, List.nodup_cons, List.mem_map] at hnd
      obtain ⟨hk0, hndrest⟩ := hnd
      by_cases h : k0 = k
      · subst h
        rw [alGet, if_pos rfl, Option.some_inj] at hget
        subst hget
        simp only [alSet, if_pos rfl, List.flatMap_cons]
        have h1 : List.Perm ([s] ++ rest.flatMap (fun p => p.2))
            (rest.flatMap (fun p => p.2) ++ [s]) := List.perm_append_comm
        have h2 := h1.append_left v0
        have h3 : v0 ++ ([s] ++ rest.flatMap (fun p => p.2))
            = (v0 ++ [s]) ++ rest.flatMap (fun p => p.2) :=
          (List.append_assoc v0 [s] (rest.flatMap (fun p => p.2))).symm
        have h4 : v0 ++ (rest.flatMap (fun p => p.2) ++ [s])
            = (v0 ++ rest.flatMap (fun p => p.2)) ++ [s] :=
          (List.append_assoc v0 (rest.flatMap (fun p => p.2)) [s]).symm
        rw [h3, h4] at h2
        exact h2
      · rw [alGet, if_neg h] at hget
        simp only [alSet, if_neg h, List.flatMap_cons]
        have hperm := (ih l hndrest hget).append_left v0
        have h4 : v0 ++ (rest.flatMap (fun p => p.2) ++ [s])
            = (v0 ++ rest.flatMap (fun p => p.2)) ++ [s] :=
          (List.append_assoc v0 (rest.flatMap (fun p => p.2)) [s]).symm
        rw [h4] at hperm
        exact hperm

/-- The single step of the departure grouping fold. -/
def departureStep (m : Model) (acc : List (Nat × List System)) (sys_id : Nat) :
    List (Nat × List System) :=
  match alGet sys_id m.systems_by_id with
  | none => acc
  | some s =>
    match alGet s.categoryId acc with
    | some l => alSet s.categoryId (l ++ [s]) acc
    | none => acc ++ [(s.categoryId, [s])]

theorem departureGroups_eq_foldl (m : Model) (checked : List Nat) :
    m.departureGroups checked
      = (List.insertionSort (· ≤ ·) checked).foldl (departureStep m) [] := rfl

theorem departureStep_nodup (m : Model) (acc : List (Nat × List System)) (sys_id : Nat)
    (hnd : (acc.map Prod.fst).Nodup) :
    ((departureStep m acc sys_id).map Prod.fst).Nodup := by
  unfold departureStep
  cases hd : alGet sys_id m.systems_by_id with
  | none => exact hnd
  | some s =>
    show ((match alGet s.categoryId acc with
        | some l => alSet s.categoryId (l ++ [s]) acc
        | none => acc ++ [(s.categoryId, [s])]).map Prod.fst).Nodup
    cases hg : alGet s.categoryId acc with
    | none =>
      have hk : s.categoryId ∉ acc.map Prod.fst := by
        intro hmem
        rcases List.mem_map.mp hmem with ⟨p, hp, hfst⟩
        cases p with
        | mk pk pv =>
          cases hfst
          have h2 := alGet_of_mem_nodup hnd hp
          rw [hg] at h2
          cases h2
      simp [List.nodup_append, hnd, hk]
    | some l =>
      have hk : s.categoryId ∈ acc.map Prod.fst :=
        List.mem_map.mpr ⟨(s.categoryId, l), alGet_mem hg, rfl⟩
      rw [alSet_keys, if_pos hk]
      exact hnd

theorem departureStep_flatMap (m : Model) (acc : List (Nat × List System)) (sys_id : Nat)
    (hnd : (acc.map Prod.fst).Nodup) :
    List.Perm ((departureStep m acc sys_id).flatMap (fun p => p.2))
      (acc.flatMap (fun p => p.2) ++
        ((alGet sys_id m.systems_by_id).map (fun s => [s])).getD []) := by
  unfold departureStep
  cases hd : alGet sys_id m.systems_by_id with
  | none => simp
  | some s =>
    show List.Perm ((match alGet s.categoryId acc with
        | some l => alSet s.categoryId (l ++ [s]) acc
        | none => acc ++ [(s.categoryId, [s])]).flatMap (fun p => p.2))
      (acc.flatMap (fun p => p.2) ++ (((some s).map (fun s => [s])).getD []))
    cases hg : alGet s.categoryId acc with
    | none => simp [List.flatMap_append]
    | some l =>
      simpa using alSet_append_flatMap s.categoryId s acc l hnd hg

theorem departureFold_flatMap (m : Model) :
    ∀ (ids : List Nat) (acc : List (Nat × List System)),
      (acc.map Prod.fst).Nodup →
      List.Perm ((ids.foldl (departureStep m) acc).flatMap (fun p => p.2))
        (acc.flatMap (fun p => p.2) ++ ids.filterMap (fun i => alGet i m.systems_by_id)) ∧
      (((ids.foldl (departureStep m) acc).map Prod.fst)).Nodup := by
  intro ids
  induction ids with
  | nil => intro acc hnd; exact ⟨by simp, hnd⟩
  | cons i rest ih =>
    intro acc hnd
    have hstep := departureStep_flatMap m acc i hnd
    have hstepnd := departureStep_nodup m acc i hnd
    obtain ⟨hrec, hrecnd⟩ := ih (departureStep m acc i) hstepnd
    refine ⟨?_, hrecnd⟩
    simp only [List.foldl_cons]
    refine hrec.trans ?_
    cases hdi : alGet i m.systems_by_id with
    | none =>
      rw [hdi] at hstep
      simp only [List.filterMap_cons, hdi]
      simpa using (hstep.append_right (rest.filterMap (fun i => alGet i m.systems_by_id)))
    | some s =>
      rw [hdi] at hstep
      have hstep2 : List.Perm ((departureStep m acc i).flatMap (fun p => p.2))
          (acc.flatMap (fun p => p.2) ++ [s]) := by simpa using hstep
      simp only [List.filterMap_cons, hdi]
      have h1 := hstep2.append_right (rest.filterMap (fun i => alGet i m.systems_by_id))
      have h2 : (acc.flatMap (fun p => p.2) ++ [s])
            ++ rest.filterMap (fun i => alGet i m.systems_by_id)
          = acc.flatMap (fun p => p.2)
            ++ (s :: rest.filterMap (fun i => alGet i m.systems_by_id)) := by
        rw [List.append_assoc]
        rfl
      exact h2 ▸ h1

theorem filterMap_alGet_ids (m : Model) (hcons : sbidConsistent m) :
    ∀ ids : List Nat, (∀ i ∈ ids, (alGet i m.systems_by_id).isSome = true) →
      (ids.filterMap (fun i => alGet i m.systems_by_id)).map (fun s => s.id) = ids := by
  intro ids
  induction ids with
  | nil => intro _; rfl
  | cons i rest ih =>
    intro hall
    have hi := hall i (List.mem_cons_self _ _)
    cases hg : alGet i m.systems_by_id with
    | none => rw [hg] at hi; cases hi
    | some s =>
      have hid : s.id = i := hcons.2 (i, s) (alGet_mem hg)
      simp only [List.filterMap_cons, hg, List.map_cons, hid]
      rw [ih (fun j hj => hall j (List.mem_cons_of_mem _ hj))]

theorem departureRows_flatMap (m : Model) (checked : List Nat)
    (hnd : ((m.departureGroups checked).map Prod.fst).Nodup) :
    List.Perm ((m.departureRows checked).flatMap (fun p => p.2))
      ((m.departureGroups checked).flatMap (fun p => p.2)) := by
  unfold Model.departureRows
  have h1 : List.Perm
      ((List.insertionSort (· ≤ ·) ((m.departureGroups checked).map Prod.fst)).map
          (fun cat_id => (cat_id, List.insertionSort byNameLe
            ((alGet cat_id (m.departureGroups checked)).getD []))) |>.flatMap (fun p => p.2))
      ((List.insertionSort (· ≤ ·) ((m.departureGroups checked).map Prod.fst)).flatMap
        (fun k => ((alGet k (m.departureGroups checked)).getD []))) := by
    rw [List.flatMap_map]
    exact List.Perm.flatMap_left _ (fun k _ => List.perm_insertionSort _ _)
  refine h1.trans ?_
  have h2 := List.Perm.flatMap_right
    (fun k => ((alGet k (m.departureGroups checked)).getD []))
    (List.perm_insertionSort (· ≤ ·) ((m.departureGroups checked).map Prod.fst))
  refine h2.trans ?_
  have h3 := flatMap_keys_eq id (m.departureGroups checked) hnd
  have h3e : ((m.departureGroups checked).map Prod.fst).flatMap
      (fun k => ((alGet k (m.departureGroups checked)).getD []))
      = (m.departureGroups checked).flatMap (fun p => p.2) := by
    simpa using h3
  rw [h3e]

/-- C7: with `generate_checked_only` false the request/checklist rows list the
whole catalog with exactly the position's assigned systems marked checked; with
it true they list exactly the assigned systems (all marked); the departure
document ignores the setting and lists exactly the assigned set. -/
theorem form_generation_spec (m : Model) (pos_id : Nat) :
    (m.generate_checked_only = false → sbcConsistent m →
      List.Perm ((m.newHireRows pos_id).map Prod.fst) m.systems ∧
      ∀ r ∈ m.newHireRows pos_id,
        r.2 = decide (r.1.id ∈ m.systems_for_position pos_id)) ∧
    (m.generate_checked_only = true → sbcConsistent m →
      List.Perm ((m.newHireRows pos_id).map Prod.fst)
        (m.systems.filter (fun s => decide (s.id ∈ m.systems_for_position pos_id))) ∧
      ∀ r ∈ m.newHireRows pos_id, r.2 = true) ∧
    (∀ b : Bool, ({ m with generate_checked_only := b } : Model).departureRows
        (m.departureChecked pos_id) = m.departureRows (m.departureChecked pos_id)) ∧
    (sbidConsistent m →
      (∀ i ∈ m.departureChecked pos_id, (alGet i m.systems_by_id).isSome = true) →
      List.Perm
        (((m.departureRows (m.departureChecked pos_id)).flatMap
            (fun p => p.2)).map (fun s => s.id))
        (m.departureChecked pos_id)) := by
  refine ⟨?_, ?_, ?_, ?_⟩
  · intro hco hcons
    have hrows : m.newHireRows pos_id
        = sectionRows m.systems_by_cat (m.systems_for_position pos_id) := by
      unfold Model.newHireRows Model.newHireSystemsByCat
      rw [hco]
      simp
    constructor
    · rw [hrows]
      have h := (sectionRows_perm m.systems_by_cat (m.systems_for_position pos_id)
        hcons.1).map Prod.fst
      rw [map_fst_flatMap_pairs] at h
      exact h.trans hcons.2
    · intro r hr
      rw [hrows] at hr
      exact sectionRows_flag _ _ r hr
  · intro hco hcons
    have hrows : m.newHireRows pos_id
        = sectionRows (filterByChecked m.systems_by_cat (m.systems_for_position pos_id))
            (m.systems_for_position pos_id) := by
      unfold Model.newHireRows Model.newHireSystemsByCat
      rw [hco]
      simp
    have hndf : ((filterByChecked m.systems_by_cat
        (m.systems_for_position pos_id)).map Prod.fst).Nodup :=
      (filterByChecked_keys_sublist _ _).nodup hcons.1
    constructor
    · rw [hrows]
      have h := (sectionRows_perm _ (m.systems_for_position pos_id) hndf).map Prod.fst
      rw [map_fst_flatMap_pairs, filterByChecked_flatMap] at h
      exact h.trans (hcons.2.filter _)
    · intro r hr
      rw [hrows] at hr
      have hflag := sectionRows_flag _ _ r hr
      unfold sectionRows at hr
      rcases List.mem_flatMap.mp hr with ⟨k, -, hk⟩
      rcases List.mem_map.mp hk with ⟨s, hs, rfl⟩
      cases hg : alGet k (filterByChecked m.systems_by_cat (m.systems_for_position pos_id)) with
      | none => rw [hg] at hs; cases hs
      | some v =>
        rw [hg] at hs
        simp only [Option.getD_some] at hs
        have := filterByChecked_mem_checked (m.systems_for_position pos_id)
          m.systems_by_cat (k, v) (alGet_mem hg) s hs
        simpa using this
  · intro b; rfl
  · intro hcons hall
    obtain ⟨hfold, hnd⟩ := departureFold_flatMap m
      (List.insertionSort (· ≤ ·) (m.departureChecked pos_id)) [] (by simp)
    have hrows := departureRows_flatMap m (m.departureChecked pos_id)
      (by rw [departureGroups_eq_foldl]; exact hnd)
    rw [departureGroups_eq_foldl] at hrows
    have h1 := (hrows.trans (by simpa using hfold)).map (fun s => s.id)
    have hall' : ∀ i ∈ List.insertionSort (· ≤ ·) (m.departureChecked pos_id),
        (alGet i m.systems_by_id).isSome = true := by
      intro i hi
      exact hall i ((List.perm_insertionSort _ _).mem_iff.mp hi)
    rw [filterMap_alGet_ids m hcons _ hall'] at h1
    exact h1.trans (List.perm_insertionSort _ _)

/-- The concrete model of the C7 scenario: systems A (cat 1), B (cat 2)
assigned to position 1, system C (cat 1) unassigned. -/
def c7Model : Model :=
  { Model.init with
    systems := [⟨1, ("A"), 1⟩, ⟨2, ("B"), 2⟩, ⟨3, ("C"), 1⟩],
    systems_by_id := [(1, ⟨1, ("A"), 1⟩), (2, ⟨2, ("B"), 2⟩), (3, ⟨3, ("C"), 1⟩)],
    systems_by_cat := [(1, [⟨1, ("A"), 1⟩, ⟨3, ("C"), 1⟩]), (2, [⟨2, ("B"), 2⟩])],
    matrix := [(("1"), [1, 2])] }

/-- Witness for C7 on the scenario model: with the setting off, the request
rows cover A, B, C; the departure rows list exactly {1, 2}. -/
theorem form_generation_spec_witness :
    List.Perm ((c7Model.newHireRows 1).map Prod.fst) c7Model.systems ∧
      List.Perm
        (((c7Model.departureRows (c7Model.departureChecked 1)).flatMap
            (fun p => p.2)).map (fun s => s.id))
        (c7Model.departureChecked 1) := by
  have h := form_generation_spec c7Model 1
  have hsbc : sbcConsistent c7Model := by
    constructor
    · decide
    · decide
  have hsbid : sbidConsistent c7Model := by
    constructor
    · decide
    · decide
  exact ⟨(h.1 rfl hsbc).1, h.2.2.2 hsbid (by decide)⟩

/-! ## C9: idempotence of `_set_input_value` -/

/-! ### Case-insensitive-prefix and scanning utilities -/

theorem ciPfx_length : ∀ p s : List Char, ciPfx p s = true → p.length ≤ s.length := by
  intro p
  induction p with
  | nil => intro s _; simp
  | cons a ps ih =>
    intro s h
    cases s with
    | nil => cases h
    | cons c cs =>
      simp only [ciPfx, Bool.and_eq_true] at h
      simpa using ih cs h.2

theorem ciPfx_append_agree : ∀ (p a x y : List Char), p.length ≤ a.length →
    ciPfx p (a ++ x) = ciPfx p (a ++ y) := by
  intro p
  induction p with
  | nil => intro a x y _; rfl
  | cons b ps ih =>
    intro a x y h
    cases a with
    | nil => simp at h
    | cons c cs =>
      simp only [List.cons_append, ciPfx]
      congr 1
      exact ih cs x y (by simpa using h)

theorem ciPfx_continue : ∀ (p a b : List Char), ciPfx p (a ++ b) = true →
    a.length < p.length → ciPfx (p.drop a.length) b = true := by
  intro p a
  induction a generalizing p with
  | nil => intro b h _; simpa using h
  | cons c cs ih =>
    intro b h hlt
    cases p with
    | nil => simp at hlt
    | cons q qs =>
      simp only [List.cons_append, ciPfx, Bool.and_eq_true] at h
      simpa using ih qs b h.2 (by simpa using hlt)

theorem ciPfx_append_of (p s z : List Char) (h : ciPfx p s = true) :
    ciPfx p (s ++ z) = true := by
  have hle := ciPfx_length p s h
  have hagree := ciPfx_append_agree p s z [] hle
  rw [List.append_nil] at hagree
  rw [hagree]
  exact h

theorem isPrefixOf_length : ∀ p s : List Char, p.isPrefixOf s = true → p.length ≤ s.length := by
  intro p s h
  have := List.isPrefixOf_iff_prefix.mp h
  exact this.length_le

theorem isPrefixOf_append_split : ∀ (u p w : List Char), p.isPrefixOf (u ++ w) = true →
    p.isPrefixOf u = true ∨
      (u.isPrefixOf p = true ∧ (p.drop u.length).isPrefixOf w = true) := by
  intro u
  induction u with
  | nil =>
    intro p w h
    right
    exact ⟨List.isPrefixOf_iff_prefix.mpr List.nil_prefix, by simpa using h⟩
  | cons c cs ih =>
    intro p w h
    cases p with
    | nil => left; rfl
    | cons q qs =>
      simp only [List.cons_append, List.isPrefixOf, Bool.and_eq_true] at h
      rcases ih qs w h.2 with h1 | ⟨h2, h3⟩
      · left
        simp only [List.isPrefixOf, Bool.and_eq_true]
        exact ⟨h.1, h1⟩
      · right
        constructor
        · simp only [List.isPrefixOf, Bool.and_eq_true]
          refine ⟨?_, h2⟩
          have := h.1
          simpa [BEq.comm] using this
        · simpa using h3

theorem takeWhile_append_of_all (p : Char → Bool) :
    ∀ (a x : List Char), (∀ c ∈ a, p c = true) →
      (a ++ x).takeWhile p = a ++ x.takeWhile p := by
  intro a
  induction a with
  | nil => intro x _; rfl
  | cons c cs ih =>
    intro x hall
    have hc : p c = true := hall c (List.mem_cons_self _ _)
    simp only [List.cons_append, List.takeWhile_cons, hc, if_true]
    rw [ih x (fun d hd => hall d (List.mem_cons_of_mem _ hd))]

theorem takeWhile_append_stop (p : Char → Bool) :
    ∀ (a x : List Char) (c0 : Char), c0 ∈ a → p c0 = false →
      (a ++ x).takeWhile p = a.takeWhile p := by
  intro a
  induction a with
  | nil => intro x c0 h _; cases h
  | cons c cs ih =>
    intro x c0 hmem hfalse
    rcases List.mem_cons.mp hmem with rfl | hmem'
    · simp [List.takeWhile_cons, hfalse]
    · simp only [List.cons_append, List.takeWhile_cons]
      cases hp : p c
      · rfl
      · rw [ih x c0 hmem' hfalse]

theorem dropWhile_append_of_all (p : Char → Bool) :
    ∀ (a x : List Char), (∀ c ∈ a, p c = true) →
      (a ++ x).dropWhile p = x.dropWhile p := by
  intro a
  induction a with
  | nil => intro x _; rfl
  | cons c cs ih =>
    intro x hall
    have hc : p c = true := hall c (List.mem_cons_self _ _)
    simp only [List.cons_append, List.dropWhile_cons, hc, if_true]
    exact ih x (fun d hd => hall d (List.mem_cons_of_mem _ hd))

theorem hasIdOccAux_cons (x : List Char) (p c : Char) (t : List Char)
    (h : hasIdOccAux x c t = true) : hasIdOccAux x p (c :: t) = true := by
  simp only [hasIdOccAux, Bool.or_eq_true]
  exact Or.inr h

theorem hasIdOccAux_prepend (x : List Char) :
    ∀ (u : List Char) (p c : Char) (t : List Char), hasIdOccAux x c t = true →
      hasIdOccAux x p (u ++ c :: t) = true := by
  intro u
  induction u with
  | nil => intro p c t h; exact hasIdOccAux_cons x p c t h
  | cons d ds ih =>
    intro p c t h
    simp only [List.cons_append]
    exact hasIdOccAux_cons x p d _ (ih d c t h)

theorem hasIdOccAux_append (x : List Char) :
    ∀ (t : List Char) (p : Char) (z : List Char), hasIdOccAux x p t = true →
      hasIdOccAux x p (t ++ z) = true := by
  intro t
  induction t with
  | nil => intro p z h; cases h
  | cons c cs ih =>
    intro p z h
    simp only [hasIdOccAux, Bool.or_eq_true] at h
    simp only [List.cons_append, hasIdOccAux, Bool.or_eq_true]
    rcases h with h | h
    · left
      simp only [Bool.and_eq_true] at h ⊢
      exact ⟨h.1, by simpa [List.cons_append] using ciPfx_append_of _ _ z h.2⟩
    · right
      exact ih c z h

theorem containsSub_append_right (p : List Char) :
    ∀ (a b : List Char), containsSub p b = true → containsSub p (a ++ b) = true := by
  intro a
  induction a with
  | nil => intro b h; simpa using h
  | cons c cs ih =>
    intro b h
    simp only [List.cons_append, containsSub, Bool.or_eq_true]
    exact Or.inr (ih b h)

theorem containsSub_cons_false {p : List Char} {c : Char} {t : List Char}
    (h : containsSub p (c :: t) = false) :
    p.isPrefixOf (c :: t) = false ∧ containsSub p t = false := by
  simp only [containsSub, Bool.or_eq_false_iff] at h
  exact h

/-! ### `replaceValues` stepping lemmas -/

theorem replaceValuesF_fuel (esc : List Char) :
    ∀ (f1 : Nat) (s : List Char) (f2 : Nat), s.length ≤ f1 → s.length ≤ f2 →
      replaceValuesF esc f1 s = replaceValuesF esc f2 s := by
  intro f1
  induction f1 with
  | zero =>
    intro s f2 h1 _
    have hs : s = [] := List.eq_nil_of_length_eq_zero (Nat.le_zero.mp h1)
    subst hs
    cases f2 <;> rfl
  | succ f ih =>
    intro s f2 h1 h2
    cases s with
    | nil => cases f2 <;> rfl
    | cons c rest =>
      cases f2 with
      | zero => simp at h2
      | succ f2' =>
        have hu : ((((c :: rest).drop 7).dropWhile (fun d => d ≠ '"')).tail).length
            ≤ rest.length := by
          have t1 : (((c :: rest).drop 7).dropWhile (fun d => d ≠ '"')).length
              ≤ ((c :: rest).drop 7).length :=
            (List.dropWhile_sublist _).length_le
          have t2 : ((c :: rest).drop 7).length = (c :: rest).length - 7 :=
            List.length_drop _ _
          have t3 := List.length_tail (((c :: rest).drop 7).dropWhile (fun d => d ≠ '"'))
          simp only [List.length_cons] at t2
          omega
        simp only [List.length_cons] at h1 h2
        simp only [replaceValuesF]
        by_cases hp : (vq7.isPrefixOf (c :: rest) && ((c :: rest).drop 7).contains '"') = true
        · rw [if_pos hp, if_pos hp]
          have hrec : replaceValuesF esc f ((((c :: rest).drop 7).dropWhile
                (fun d => d ≠ '"')).tail)
              = replaceValuesF esc f2' ((((c :: rest).drop 7).dropWhile
                (fun d => d ≠ '"')).tail) := by
            apply ih
            · omega
            · omega
          rw [hrec]
        · rw [if_neg hp, if_neg hp]
          by_cases hq : vq7.isPrefixOf (c :: rest) = true
          · rw [if_pos hq, if_pos hq]
          · rw [if_neg hq, if_neg hq]
            have hrec : replaceValuesF esc f rest = replaceValuesF esc f2' rest := by
              apply ih
              · omega
              · omega
            rw [hrec]

theorem replaceValues_cons_nomatch (esc : List Char) (c : Char) (w : List Char)
    (h : vq7.isPrefixOf (c :: w) = false) :
    replaceValues esc (c :: w) = c :: replaceValues esc w := by
  simp only [replaceValues, List.length_cons, replaceValuesF, h, Bool.false_and,
    Bool.false_eq_true, if_false]

theorem replaceValues_cons_match (esc : List Char) (c : Char) (w : List Char)
    (h1 : vq7.isPrefixOf (c :: w) = true)
    (h2 : ((c :: w).drop 7).contains '"' = true) :
    replaceValues esc (c :: w)
      = vq7 ++ esc ++ '"' ::
          replaceValues esc ((((c :: w).drop 7).dropWhile (fun d => d ≠ '"')).tail) := by
  have hu : ((((c :: w).drop 7).dropWhile (fun d => d ≠ '"')).tail).length ≤ w.length := by
    have t1 : (((c :: w).drop 7).dropWhile (fun d => d ≠ '"')).length
        ≤ ((c :: w).drop 7).length := (List.dropWhile_sublist _).length_le
    have t2 : ((c :: w).drop 7).length = (c :: w).length - 7 := List.length_drop _ _
    have t3 := List.length_tail (((c :: w).drop 7).dropWhile (fun d => d ≠ '"'))
    simp only [List.length_cons] at t2
    omega
  simp only [replaceValues, List.length_cons, replaceValuesF, h1, h2, Bool.and_self, if_pos]
  rw [replaceValuesF_fuel esc w.length _ (((((c :: w).drop 7).dropWhile
    (fun d => d ≠ '"')).tail).length) hu (Nat.le_refl _)]

theorem vq7_not_prefixOf_across (esc : List Char) (c : Char) (t : List Char)
    (h : containsSub valueEqPat (c :: t) = false) :
    vq7.isPrefixOf ((c :: t) ++ appendedValueAttr esc) = false := by
  by_contra hcon
  rw [Bool.not_eq_false] at hcon
  rcases isPrefixOf_append_split (c :: t) vq7 (appendedValueAttr esc) hcon with h1 | ⟨h2, h3⟩
  · have hvq : valueEqPat <+: vq7 :=
      List.isPrefixOf_iff_prefix.mp (by decide)
    have hv : valueEqPat.isPrefixOf (c :: t) = true :=
      List.isPrefixOf_iff_prefix.mpr (hvq.trans (List.isPrefixOf_iff_prefix.mp h1))
    have hfalse := (containsSub_cons_false h).1
    rw [hv] at hfalse
    cases hfalse
  · have hlen : (c :: t).length ≤ 7 := by
      have := isPrefixOf_length _ _ h2
      simpa [vq7] using this
    by_cases h7 : (c :: t).length = 7
    · have heq : c :: t = vq7 :=
        (List.isPrefixOf_iff_prefix.mp h2).eq_of_length (by simpa [vq7] using h7)
      have hv : valueEqPat.isPrefixOf (c :: t) = true := by
        rw [heq]
        decide
      have hfalse := (containsSub_cons_false h).1
      rw [hv] at hfalse
      cases hfalse
    · have hk1 : 1 ≤ (c :: t).length := by simp
      have hk6 : (c :: t).length ≤ 6 := by omega
      set k := (c :: t).length with hkdef
      interval_cases k <;> simp [vq7, appendedValueAttr, List.isPrefixOf] at h3

theorem replaceValues_scan_through (esc : List Char) :
    ∀ attrs : List Char, containsSub valueEqPat attrs = false →
      replaceValues esc (attrs ++ appendedValueAttr esc)
        = attrs ++ replaceValues esc (appendedValueAttr esc) := by
  intro attrs
  induction attrs with
  | nil => intro _; rfl
  | cons c t ih =>
    intro h
    obtain ⟨h1, h2⟩ := containsSub_cons_false h
    have hnp := vq7_not_prefixOf_across esc c t h
    have hnp2 : vq7.isPrefixOf (c :: (t ++ appendedValueAttr esc)) = false := by
      simpa using hnp
    rw [List.cons_append, replaceValues_cons_nomatch esc c _ hnp2, ih h2]
    rfl

theorem replaceValues_appended (esc : List Char) (hq : '"' ∉ esc) :
    replaceValues esc (appendedValueAttr esc) = appendedValueAttr esc := by
  have hsp : vq7.isPrefixOf
      (' ' :: ('v':: 'a':: 'l':: 'u':: 'e':: '=':: '"':: (esc ++ ['"']))) = false := by
    simp [vq7, List.isPrefixOf]
  have hpre : vq7.isPrefixOf ('v':: 'a':: 'l':: 'u':: 'e':: '=':: '"':: (esc ++ ['"'])) = true := by
    simp [vq7, List.isPrefixOf]
  have hcont : (('v':: 'a':: 'l':: 'u':: 'e':: '=':: '"':: (esc ++ ['"'])).drop 7).contains '"'
      = true := by
    simp
  have hall : ∀ d ∈ esc, (fun d => decide (d ≠ '"')) d = true := by
    intro d hd
    have hne : d ≠ '"' := fun he => hq (he ▸ hd)
    simp [hne]
  have hdw : ((('v':: 'a':: 'l':: 'u':: 'e':: '=':: '"':: (esc ++ ['"'])).drop 7).dropWhile
      (fun d => d ≠ '"')).tail = [] := by
    show ((esc ++ ['"']).dropWhile (fun d => d ≠ '"')).tail = []
    rw [dropWhile_append_of_all _ esc ['"'] hall]
    simp [List.dropWhile]
  show replaceValues esc (' ' :: ('v':: 'a':: 'l':: 'u':: 'e':: '=':: '"':: (esc ++ ['"'])))
      = ' ' :: ('v':: 'a':: 'l':: 'u':: 'e':: '=':: '"':: (esc ++ ['"']))
  rw [replaceValues_cons_nomatch esc ' ' _ hsp]
  rw [replaceValues_cons_match esc 'v' _ hpre hcont]
  rw [hdw]
  show ' ' :: (vq7 ++ esc ++ '"' :: replaceValues esc []) = _
  have hnil : replaceValues esc [] = [] := rfl
  rw [hnil]
  simp [vq7]

theorem containsSub_value_appended (esc attrs : List Char) :
    containsSub valueEqPat (attrs ++ appendedValueAttr esc) = true := by
  apply containsSub_append_right
  show containsSub valueEqPat (' ' :: ('v':: 'a':: 'l':: 'u':: 'e':: '=':: '"':: (esc ++ ['"']))) = true
  simp [containsSub, valueEqPat, List.isPrefixOf]

/-! ### `findTag` characterisation -/

/-- The word-boundary component of `tagMatch`. -/
def bndOk (s : List Char) : Bool :=
  match s.drop 6 with
  | [] => true
  | c :: _ => !(isWordChar c)

/-- The id-occurrence component of `tagMatch`. -/
def idOccOk (x s : List Char) : Bool :=
  match s.takeWhile (fun c => c ≠ '>') with
  | [] => false
  | c :: rest => hasIdOccAux x c rest

theorem tagMatch_eq (x s : List Char) :
    tagMatch x s
      = (ciPfx (("<input").data) s && bndOk s && s.contains '>' && idOccOk x s) := rfl

theorem tagMatch_parts {x s : List Char} (h : tagMatch x s = true) :
    ciPfx (("<input").data) s = true ∧ bndOk s = true ∧ s.contains '>' = true ∧
      idOccOk x s = true := by
  rw [tagMatch_eq] at h
  simp only [Bool.and_eq_true] at h
  exact ⟨h.1.1.1, h.1.1.2, h.1.2, h.2⟩

theorem tagMatch_intro {x s : List Char} (h1 : ciPfx (("<input").data) s = true)
    (h2 : bndOk s = true) (h3 : s.contains '>' = true) (h4 : idOccOk x s = true) :
    tagMatch x s = true := by
  rw [tagMatch_eq, h1, h2, h3, h4]
  rfl

theorem dropWhile_contains_head (l : List Char) (h : l.contains '>' = true) :
    l.dropWhile (fun c => c ≠ '>')
      = '>' :: (l.dropWhile (fun c => c ≠ '>')).tail := by
  have hmem : '>' ∈ l := List.mem_of_elem_eq_true h
  induction l with
  | nil => cases hmem
  | cons c rest ih =>
    by_cases hc : c = '>'
    · subst hc
      simp [List.dropWhile]
    · have hmem' : '>' ∈ rest := by
        rcases List.mem_cons.mp hmem with h1 | h1
        · exact absurd h1.symm hc
        · exact h1
      have hrest : rest.contains '>' = true := List.elem_eq_true_of_mem hmem'
      simp only [List.dropWhile, ne_eq, hc, not_false_eq_true, decide_True, if_true]
      exact ih hrest hmem'

theorem findTag_sound (x : List Char) :
    ∀ (s pre attrs post : List Char), findTag x s = some (pre, attrs, post) →
      s = pre ++ attrs ++ '>' :: post ∧
      (∀ i, i < pre.length → tagMatch x (pre.drop i ++ attrs ++ '>' :: post) = false) ∧
      tagMatch x (attrs ++ '>' :: post) = true ∧
      (∀ c ∈ attrs, c ≠ '>') := by
  intro s
  induction s with
  | nil => intro pre attrs post h; cases h
  | cons c rest ih =>
    intro pre attrs post h
    by_cases htm : tagMatch x (c :: rest) = true
    · rw [findTag, if_pos htm] at h
      injection h with h2
      injection h2 with hpre h3
      injection h3 with hattrs hpost
      subst hpre
      subst hattrs
      subst hpost
      have hcont := (tagMatch_parts htm).2.2.1
      have hsplit : (c :: rest).takeWhile (fun d => d ≠ '>')
          ++ '>' :: ((c :: rest).dropWhile (fun d => d ≠ '>')).tail = c :: rest := by
        have hx := List.takeWhile_append_dropWhile (fun d => decide (d ≠ '>')) (c :: rest)
        rw [dropWhile_contains_head _ hcont] at hx
        exact hx
      refine ⟨by rw [List.nil_append, hsplit], ?_, ?_, ?_⟩
      · intro i hi
        simp at hi
      · rw [hsplit]
        exact htm
      · intro d hd
        have := List.mem_takeWhile_imp hd
        simpa using this
    · rw [findTag, if_neg htm] at h
      cases hrec : findTag x rest with
      | none => rw [hrec] at h; cases h
      | some t =>
        obtain ⟨p, a, po⟩ := t
        rw [hrec] at h
        injection h with h2
        injection h2 with hpre h3
        injection h3 with hattrs hpost
        subst hpre
        subst hattrs
        subst hpost
        obtain ⟨hdec, hnoe, htg, hfr⟩ := ih p a po hrec
        refine ⟨by rw [hdec]; simp [List.append_assoc], ?_, htg, hfr⟩
        intro i hi
        cases i with
        | zero =>
          simp only [List.drop_zero, List.cons_append, ← hdec]
          simpa using htm
        | succ i' =>
          simp only [List.drop_succ_cons]
          exact hnoe i' (by simpa using Nat.lt_of_succ_lt_succ hi)

theorem findTag_complete (x : List Char) :
    ∀ (pre attrs post : List Char),
      tagMatch x (attrs ++ '>' :: post) = true →
      (∀ c ∈ attrs, c ≠ '>') →
      (∀ i, i < pre.length → tagMatch x (pre.drop i ++ attrs ++ '>' :: post) = false) →
      findTag x (pre ++ attrs ++ '>' :: post) = some (pre, attrs, post) := by
  intro pre
  induction pre with
  | nil =>
    intro attrs post htm hfree _
    have hTW : (attrs ++ '>' :: post).takeWhile (fun d => d ≠ '>') = attrs := by
      rw [takeWhile_append_of_all _ attrs ('>' :: post)
        (fun d hd => by simpa using hfree d hd)]
      simp [List.takeWhile_cons]
    have hDW : (attrs ++ '>' :: post).dropWhile (fun d => d ≠ '>') = '>' :: post := by
      rw [dropWhile_append_of_all _ attrs ('>' :: post)
        (fun d hd => by simpa using hfree d hd)]
      simp [List.dropWhile_cons]
    cases hattrs : attrs with
    | nil =>
      exfalso
      subst hattrs
      have hio := (tagMatch_parts htm).2.2.2
      unfold idOccOk at hio
      rw [hTW] at hio
      cases hio
    | cons a0 arest =>
      subst hattrs
      rw [List.nil_append]
      show findTag x (a0 :: (arest ++ '>' :: post)) = some ([], a0 :: arest, post)
      have htm2 : tagMatch x (a0 :: (arest ++ '>' :: post)) = true := by
        simpa using htm
      rw [findTag, if_pos htm2]
      have hTW2 : (a0 :: (arest ++ '>' :: post)).takeWhile (fun d => d ≠ '>')
          = a0 :: arest := by
        have : a0 :: (arest ++ '>' :: post) = (a0 :: arest) ++ '>' :: post := rfl
        rw [this, hTW]
      have hDW2 : (a0 :: (arest ++ '>' :: post)).dropWhile (fun d => d ≠ '>')
          = '>' :: post := by
        have : a0 :: (arest ++ '>' :: post) = (a0 :: arest) ++ '>' :: post := rfl
        rw [this, hDW]
      rw [hTW2, hDW2]
      rfl
  | cons c pre' ih =>
    intro attrs post htm hfree hnoe
    show findTag x (c :: (pre' ++ attrs ++ '>' :: post)) = some (c :: pre', attrs, post)
    have h0 : tagMatch x (c :: (pre' ++ attrs ++ '>' :: post)) = false := by
      have := hnoe 0 (by simp)
      simpa using this
    rw [findTag, if_neg (by rw [h0]; exact Bool.false_ne_true)]
    rw [ih attrs post htm hfree (fun i hi => by
      have := hnoe (i + 1) (by simpa using Nat.succ_lt_succ hi)
      simpa using this)]

/-! ### Character-class facts for the idempotence argument -/

theorem char_ofNat_toNat (n : Nat) (h : Nat.isValidChar n) : (Char.ofNat n).toNat = n := by
  unfold Char.ofNat
  rw [dif_pos h]
  rfl

theorem toLower_eq_low {c t : Char} (ht : t.toNat < 97) (h : c.toLower = t) : c = t := by
  unfold Char.toLower at h
  simp only at h
  by_cases hc : c.toNat ≥ 65 ∧ c.toNat ≤ 90
  · rw [if_pos hc] at h
    exfalso
    have hvalid : Nat.isValidChar (c.toNat + 32) := Or.inl (by omega)
    have hval := char_ofNat_toNat (c.toNat + 32) hvalid
    rw [h] at hval
    omega
  · rw [if_neg hc] at h
    exact h

theorem ciEq_symm (a b : Char) : ciEq a b = ciEq b a := by
  simp [ciEq, eq_comm]

theorem ciEq_low_false {d t : Char} (ht : t.toNat < 97) (htl : t.toLower = t)
    (h : d ≠ t) : ciEq d t = false := by
  simp only [ciEq, htl, decide_eq_false_iff_not]
  intro he
  exact h (toLower_eq_low ht he)

theorem ciPfx_cons_head {q : Char} {qs : List Char} {c : Char} {cs : List Char}
    (h : ciPfx (q :: qs) (c :: cs) = true) : ciEq q c = true := by
  simp only [ciPfx, Bool.and_eq_true] at h
  exact h.1

theorem ciPfx_false_of_short {p s : List Char} (h : s.length < p.length) :
    ciPfx p s = false := by
  by_contra hc
  rw [Bool.not_eq_false] at hc
  have := ciPfx_length p s hc
  omega

/-- If the matched prefix of the document starts with six characters
case-insensitively equal to `<input`, the character right before the `>`
cannot be part of them, so the attribute text has length at least 6. -/
theorem attrs_length_ge (attrs post : List Char)
    (h : ciPfx (("<input").data) (attrs ++ '>' :: post) = true) : 6 ≤ attrs.length := by
  by_contra hlt
  push_neg at hlt
  have hlt6 : attrs.length < (("<input").data).length := by
    have h6 : (("<input").data).length = 6 := by decide
    omega
  have h2 := ciPfx_continue (("<input").data) attrs ('>' :: post) h hlt6
  rw [List.drop_eq_getElem_cons hlt6] at h2
  have hhead := ciPfx_cons_head h2
  have hmem : (("<input").data)[attrs.length] ∈ ("<input").data := List.getElem_mem hlt6
  have hall : ∀ q ∈ ("<input").data, ciEq q '>' = false := by decide
  rw [hall _ hmem] at hhead
  cases hhead

/-- The word-boundary test only inspects the seventh character, so it is
unchanged when everything past a fixed block of length at least 7 changes. -/
theorem bndOk_agree (a x y : List Char) (h : 7 ≤ a.length) :
    bndOk (a ++ x) = bndOk (a ++ y) := by
  have hax : (a ++ x).drop 6 = a.drop 6 ++ x :=
    @List.drop_append_of_le_length _ a x 6 (by omega)
  have hay : (a ++ y).drop 6 = a.drop 6 ++ y :=
    @List.drop_append_of_le_length _ a y 6 (by omega)
  have hlen : 1 ≤ (a.drop 6).length := by
    rw [List.length_drop]
    omega
  unfold bndOk
  rw [hax, hay]
  cases hd : a.drop 6 with
  | nil => rw [hd] at hlen; simp at hlen
  | cons d ds => rfl

/-- The literal `id="…"` pattern cannot match a quote-free text followed by
one closing quote: the pattern's own inner quote has nowhere to land. -/
theorem ciPfx_idPat_quoted_false (x : List Char) :
    ∀ (w : List Char), (∀ d ∈ w, ciEq d '"' = false) →
      ciPfx (idPat x) (w ++ ['"']) = false := by
  intro w hall
  rcases w with _ | ⟨c0, _ | ⟨c1, _ | ⟨c2, rest⟩⟩⟩
  · apply ciPfx_false_of_short
    simp [idPat]
  · apply ciPfx_false_of_short
    simp [idPat]
  · apply ciPfx_false_of_short
    simp [idPat]
  · show ciPfx ('i':: 'd':: '=':: '"'::(x ++ ['"'])) (c0::c1::c2::(rest ++ ['"'])) = false
    simp only [ciPfx]
    have hlast : ciPfx ('"'::(x ++ ['"'])) (rest ++ ['"']) = false := by
      cases rest with
      | nil =>
        show ciPfx ('"'::(x ++ ['"'])) ['"'] = false
        simp only [ciPfx]
        have hnil : ciPfx (x ++ ['"']) [] = false := by
          cases hx : x ++ ['"'] with
          | nil => exact absurd hx (by simp)
          | cons a as => rfl
        rw [hnil, Bool.and_false]
      | cons d rest' =>
        have hd : ciEq d '"' = false := hall d (by simp)
        show ciPfx ('"'::(x ++ ['"'])) (d :: (rest' ++ ['"'])) = false
        simp only [ciPfx]
        rw [ciEq_symm, hd, Bool.false_and]
    rw [hlast]
    simp

theorem hasIdOccAux_escq_false (x : List Char) :
    ∀ (w : List Char), (∀ d ∈ w, ciEq d '"' = false) →
      ∀ p, hasIdOccAux x p (w ++ ['"']) = false := by
  intro w
  induction w with
  | nil =>
    intro _ p
    rw [List.nil_append]
    show ((!(isWordChar p) && ciPfx (idPat x) ['"']) || hasIdOccAux x '"' []) = false
    have h1 : ciPfx (idPat x) ['"'] = false := by
      have := ciPfx_idPat_quoted_false x [] (by intro d hd; cases hd)
      simpa using this
    rw [h1, Bool.and_false, Bool.false_or]
    rfl
  | cons c cs ih =>
    intro hall p
    have hc : ciEq c '"' = false := hall c (List.mem_cons_self _ _)
    have hcs : ∀ d ∈ cs, ciEq d '"' = false := fun d hd => hall d (List.mem_cons_of_mem _ hd)
    have hpfx : ciPfx (idPat x) (c :: (cs ++ ['"'])) = false := by
      have := ciPfx_idPat_quoted_false x (c :: cs) hall
      simpa [List.cons_append] using this
    show ((!(isWordChar p) && ciPfx (idPat x) (c :: (cs ++ ['"']))) || hasIdOccAux x c (cs ++ ['"'])) = false
    rw [hpfx, Bool.and_false, Bool.false_or]
    exact ih hcs c

theorem ciPfx_idPat_head_false (x : List Char) {c : Char} (t : List Char)
    (h : ciEq 'i' c = false) : ciPfx (idPat x) (c :: t) = false := by
  show ciPfx ('i':: 'd':: '=':: '"'::(x ++ ['"'])) (c :: t) = false
  simp only [ciPfx, h, Bool.false_and]

theorem hasIdOccAux_cons_nopfx (x : List Char) {c : Char} {t : List Char} (p : Char)
    (h : ciPfx (idPat x) (c :: t) = false) :
    hasIdOccAux x p (c :: t) = hasIdOccAux x c t := by
  simp only [hasIdOccAux, h, Bool.and_false, Bool.false_or]

/-- No `\bid="…"` occurrence lies inside the appended ` value="{esc}"` text
when the escaped value contains no character case-equal to a quote. -/
theorem hasIdOccAux_appended_false (x esc : List Char)
    (hesc : ∀ d ∈ esc, ciEq d '"' = false) :
    ∀ p, hasIdOccAux x p (appendedValueAttr esc) = false := by
  intro p
  have hrec : hasIdOccAux x '"' (esc ++ ['"']) = false :=
    hasIdOccAux_escq_false x esc hesc '"'
  show hasIdOccAux x p (' ':: 'v':: 'a':: 'l':: 'u':: 'e':: '=':: '"'::(esc ++ ['"'])) = false
  rw [hasIdOccAux_cons_nopfx x p (ciPfx_idPat_head_false x _ (by decide))]
  rw [hasIdOccAux_cons_nopfx x ' ' (ciPfx_idPat_head_false x _ (by decide))]
  rw [hasIdOccAux_cons_nopfx x 'v' (ciPfx_idPat_head_false x _ (by decide))]
  rw [hasIdOccAux_cons_nopfx x 'a' (ciPfx_idPat_head_false x _ (by decide))]
  rw [hasIdOccAux_cons_nopfx x 'l' (ciPfx_idPat_head_false x _ (by decide))]
  rw [hasIdOccAux_cons_nopfx x 'u' (ciPfx_idPat_head_false x _ (by decide))]
  rw [hasIdOccAux_cons_nopfx x 'e' (ciPfx_idPat_head_false x _ (by decide))]
  rw [hasIdOccAux_cons_nopfx x '=' (ciPfx_idPat_head_false x _ (by decide))]
  exact hrec

/-- An id occurrence in `w ++ ' value="{esc}"' ` already lies in `w`: it can
neither start inside the appended text nor straddle into it (the straddle
would need a space-like character in the pattern). -/
theorem hasIdOccAux_strip_appended (x esc : List Char)
    (hx : ∀ d ∈ idPat x, ciEq d ' ' = false)
    (hesc : ∀ d ∈ esc, ciEq d '"' = false) :
    ∀ (w : List Char) (p : Char),
      hasIdOccAux x p (w ++ appendedValueAttr esc) = true → hasIdOccAux x p w = true := by
  intro w
  induction w with
  | nil =>
    intro p h
    rw [List.nil_append, hasIdOccAux_appended_false x esc hesc p] at h
    cases h
  | cons c w' ih =>
    intro p h
    simp only [List.cons_append, hasIdOccAux, Bool.or_eq_true, Bool.and_eq_true] at h ⊢
    rcases h with ⟨hnw, hpfx⟩ | h2
    · left
      refine ⟨hnw, ?_⟩
      by_cases hlen : (idPat x).length ≤ (c :: w').length
      · have hagree := ciPfx_append_agree (idPat x) (c :: w') (appendedValueAttr esc) [] hlen
        rw [List.append_nil] at hagree
        rw [← hagree]
        simpa [List.cons_append] using hpfx
      · exfalso
        push_neg at hlen
        have hcont := ciPfx_continue (idPat x) (c :: w') (appendedValueAttr esc)
          (by simpa [List.cons_append] using hpfx) hlen
        rw [List.drop_eq_getElem_cons hlen] at hcont
        rw [show appendedValueAttr esc
            = ' ' :: ('v':: 'a':: 'l':: 'u':: 'e':: '=':: '"'::(esc ++ ['"'])) from rfl] at hcont
        have hhead := ciPfx_cons_head hcont
        have hmem : (idPat x)[(c :: w').length] ∈ idPat x := List.getElem_mem hlen
        rw [hx _ hmem] at hhead
        cases hhead
    · right
      exact ih c h2

theorem appendedValueAttr_gtfree (esc : List Char) (hgt : '>' ∉ esc) :
    ∀ d ∈ appendedValueAttr esc, d ≠ '>' := by
  intro d hd he
  subst he
  have h2 : '>' ∈ (' ':: 'v':: 'a':: 'l':: 'u':: 'e':: '=':: '"'::(esc ++ ['"'])) := hd
  simp only [List.mem_cons, List.mem_append, List.mem_singleton] at h2
  rcases h2 with h|h|h|h|h|h|h|h|h|h
  all_goals first
  | exact absurd h (by decide)
  | exact hgt h

theorem takeWhile_gtfree (u post : List Char) (hu : ∀ d ∈ u, d ≠ '>') :
    (u ++ '>' :: post).takeWhile (fun d => d ≠ '>') = u := by
  rw [takeWhile_append_of_all _ u ('>' :: post) (fun d hd => by simpa using hu d hd)]
  simp [List.takeWhile_cons]

/-- Rewriting the matched element's attribute text to
`attrs ++ ' value="{esc}"'` keeps the regex matching at that position. -/
theorem tagMatch_rewritten (x esc attrs post : List Char)
    (htm : tagMatch x (attrs ++ '>' :: post) = true)
    (hfree : ∀ c ∈ attrs, c ≠ '>')
    (hgt : '>' ∉ esc) :
    tagMatch x ((attrs ++ appendedValueAttr esc) ++ '>' :: post) = true := by
  obtain ⟨hci, hbnd, hcon, hio⟩ := tagMatch_parts htm
  have h6 : 6 ≤ attrs.length := attrs_length_ge attrs post hci
  have hlen6 : (("<input").data).length = 6 := by decide
  apply tagMatch_intro
  · have hagree := ciPfx_append_agree (("<input").data) attrs
      (appendedValueAttr esc ++ '>' :: post) ('>' :: post) (by omega)
    rw [List.append_assoc, hagree]
    exact hci
  · by_cases h7 : 7 ≤ attrs.length
    · have hagree := bndOk_agree attrs (appendedValueAttr esc ++ '>' :: post) ('>' :: post) h7
      rw [List.append_assoc, hagree]
      exact hbnd
    · have h6eq : attrs.length = 6 := by omega
      have hd : (attrs ++ (appendedValueAttr esc ++ '>' :: post)).drop 6
          = appendedValueAttr esc ++ '>' :: post := by
        rw [← h6eq]
        exact List.drop_left _ _
      unfold bndOk
      rw [List.append_assoc, hd]
      show (!(isWordChar ' ')) = true
      decide
  · exact List.elem_eq_true_of_mem (by simp)
  · unfold idOccOk at hio ⊢
    rw [takeWhile_gtfree attrs post hfree] at hio
    have hfree2 : ∀ d ∈ attrs ++ appendedValueAttr esc, d ≠ '>' := by
      intro d hd
      rcases List.mem_append.mp hd with h|h
      · exact hfree d h
      · exact appendedValueAttr_gtfree esc hgt d h
    rw [takeWhile_gtfree _ post hfree2]
    cases attrs with
    | nil => exact absurd hio (by simp)
    | cons a0 arest =>
      have hio2 : hasIdOccAux x a0 arest = true := hio
      show hasIdOccAux x a0 (arest ++ appendedValueAttr esc) = true
      exact hasIdOccAux_append x arest a0 _ hio2

/-- Conversely, a match starting strictly before the rewritten element
would already have been a match before the rewrite. -/
theorem tagMatch_transfer (x esc attrs post u : List Char)
    (hune : u ≠ [])
    (h6 : 6 ≤ attrs.length)
    (hfree : ∀ c ∈ attrs, c ≠ '>')
    (hx : ∀ d ∈ idPat x, ciEq d ' ' = false)
    (hesc : ∀ d ∈ esc, ciEq d '"' = false)
    (hgt : '>' ∉ esc)
    (hnew : tagMatch x (u ++ (attrs ++ appendedValueAttr esc) ++ '>' :: post) = true) :
    tagMatch x (u ++ attrs ++ '>' :: post) = true := by
  obtain ⟨hci, hbnd, hcon, hio⟩ := tagMatch_parts hnew
  simp only [List.append_assoc] at hci hbnd hcon hio
  have h7 : 7 ≤ (u ++ attrs).length := by
    cases u with
    | nil => exact absurd rfl hune
    | cons c cs =>
      simp only [List.length_append, List.length_cons]
      omega
  have hlen6 : (("<input").data).length = 6 := by decide
  apply tagMatch_intro
  · have hagree := ciPfx_append_agree (("<input").data) (u ++ attrs)
      (appendedValueAttr esc ++ '>' :: post) ('>' :: post)
      (Nat.le_trans (by decide) h7)
    simp only [List.append_assoc] at hagree
    rw [hagree] at hci
    simp only [List.append_assoc]
    exact hci
  · have hagree := bndOk_agree (u ++ attrs)
      (appendedValueAttr esc ++ '>' :: post) ('>' :: post) h7
    simp only [List.append_assoc] at hagree
    rw [hagree] at hbnd
    simp only [List.append_assoc]
    exact hbnd
  · exact List.elem_eq_true_of_mem (by simp)
  · by_cases hgtu : '>' ∈ u
    · unfold idOccOk at hio ⊢
      simp only [List.append_assoc] at hio ⊢
      rw [takeWhile_append_stop _ u _ '>' hgtu (by simp)] at hio ⊢
      exact hio
    · have hufree : ∀ d ∈ u, d ≠ '>' := fun d hd he => hgtu (he ▸ hd)
      unfold idOccOk at hio ⊢
      have hallNew : ∀ d ∈ u ++ (attrs ++ appendedValueAttr esc), d ≠ '>' := by
        intro d hd
        rcases List.mem_append.mp hd with h|h
        · exact hufree d h
        · rcases List.mem_append.mp h with h2|h2
          · exact hfree d h2
          · exact appendedValueAttr_gtfree esc hgt d h2
      have hallOld : ∀ d ∈ u ++ attrs, d ≠ '>' := by
        intro d hd
        rcases List.mem_append.mp hd with h|h
        · exact hufree d h
        · exact hfree d h
      have eNew : u ++ (attrs ++ (appendedValueAttr esc ++ '>' :: post))
          = (u ++ (attrs ++ appendedValueAttr esc)) ++ '>' :: post := by
        simp [List.append_assoc]
      have eOld : u ++ (attrs ++ '>' :: post) = (u ++ attrs) ++ '>' :: post := by
        simp [List.append_assoc]
      rw [eNew, takeWhile_gtfree _ post hallNew] at hio
      rw [takeWhile_gtfree (u ++ attrs) post hallOld]
      cases u with
      | nil => exact absurd rfl hune
      | cons c u' =>
        have hio2 : hasIdOccAux x c (u' ++ (attrs ++ appendedValueAttr esc)) = true := hio
        have hio3 : hasIdOccAux x c ((u' ++ attrs) ++ appendedValueAttr esc) = true := by
          rw [List.append_assoc]
          exact hio2
        have hstrip := hasIdOccAux_strip_appended x esc hx hesc (u' ++ attrs) c hio3
        show hasIdOccAux x c (u' ++ attrs) = true
        exact hstrip

/-- After the first rewrite the regex still matches at exactly the same
place, with the appended value attribute absorbed into group 1. -/
theorem findTag_second (x esc html pre attrs post : List Char)
    (hfind : findTag x html = some (pre, attrs, post))
    (hx : ∀ d ∈ idPat x, ciEq d ' ' = false)
    (hesc : ∀ d ∈ esc, ciEq d '"' = false)
    (hgt : '>' ∉ esc) :
    findTag x (pre ++ (attrs ++ appendedValueAttr esc) ++ '>' :: post)
      = some (pre, attrs ++ appendedValueAttr esc, post) := by
  obtain ⟨hdec, hnoe, htm, hfree⟩ := findTag_sound x html pre attrs post hfind
  have h6 : 6 ≤ attrs.length := attrs_length_ge attrs post (tagMatch_parts htm).1
  apply findTag_complete
  · exact tagMatch_rewritten x esc attrs post htm hfree hgt
  · intro c hc
    rcases List.mem_append.mp hc with h|h
    · exact hfree c h
    · exact appendedValueAttr_gtfree esc hgt c h
  · intro i hi
    by_contra hcon
    rw [Bool.not_eq_false] at hcon
    have hu : pre.drop i ≠ [] := by
      intro he
      have hlen := congrArg List.length he
      simp only [List.length_drop, List.length_nil] at hlen
      omega
    have hold := tagMatch_transfer x esc attrs post (pre.drop i) hu h6 hfree hx hesc hgt hcon
    have hfalse := hnoe i hi
    rw [hold] at hfalse
    simp at hfalse

/-- Counterexample to C9 as stated: on a template whose first matching
element's attribute text already contains `value=` with a stray quote —
`<input value="+id="nombre">` followed by a clean `<input id="nombre">` —
the first fill rewrites the first element into
`<input value="V"nombre">`, which no longer matches the pattern, so the
second fill modifies the *second* element: the two results differ. -/
theorem set_input_value_idempotent_counterexample :
    ∃ html input_id value : String,
      FormGenerator.set_input_value
          (FormGenerator.set_input_value html input_id value) input_id value
        ≠ FormGenerator.set_input_value html input_id value := by
  refine ⟨"<input value=\"+id=\"nombre\"><input id=\"nombre\">", "nombre", "V", ?_⟩
  decide

/-- C9 (amended): template field filling is idempotent whenever the first
matching `<input>` element's attribute text contains no `value=` substring —
the fresh-template case, where the fill appends a ` value="…"` attribute —
the field id contains no character case-insensitively equal to a space, and
the inserted value contains no backslash.  The backslash-free hypothesis
marks where the embedding is faithful: `re.sub` processes its replacement
string as a template (`\t` becomes a TAB, `\1` raises `re.error`), so the
program substitutes a backslash-bearing escaped value non-literally, while
`replaceValuesF` inserts it literally; for backslash-free values the
template processing is the identity and the two agree.  The second
application then finds the same element again (the appended attribute is
absorbed into the match) and, since the attribute text now contains
`value=`, overwrites the quoted value in place with the same text, leaving
the document unchanged.  As stated over all templates the claim is false:
see the counterexample, where a pre-existing unclosed `value="` makes the
first fill destroy the match. -/
theorem set_input_value_idempotent (x v html pre attrs post : List Char)
    (hfind : findTag x html = some (pre, attrs, post))
    (hnoval : containsSub valueEqPat attrs = false)
    (hxs : ∀ d ∈ x, ciEq d ' ' = false)
    (_hbs : '\\' ∉ v) :
    setInputValueL x v (setInputValueL x v html) = setInputValueL x v html := by
  have hescq : ∀ d ∈ escapeHtmlL v, ciEq d '"' = false := fun d hd =>
    ciEq_low_false (by decide) (by decide) ((escapeHtmlL_no_markup v d hd).2.2)
  have hgt : '>' ∉ escapeHtmlL v := fun hm => (escapeHtmlL_no_markup v '>' hm).2.1 rfl
  have hqraw : '"' ∉ escapeHtmlL v := fun hm => (escapeHtmlL_no_markup v '"' hm).2.2 rfl
  have hx : ∀ d ∈ idPat x, ciEq d ' ' = false := by
    intro d hd
    have hd2 : d ∈ 'i':: 'd':: '=':: '"'::(x ++ ['"']) := hd
    simp only [List.mem_cons, List.mem_append, List.mem_singleton, List.not_mem_nil,
      or_false] at hd2
    rcases hd2 with rfl|rfl|rfl|rfl|h|rfl
    · decide
    · decide
    · decide
    · decide
    · exact hxs d h
    · decide
  have hfirst : setInputValueL x v html
      = pre ++ (attrs ++ appendedValueAttr (escapeHtmlL v)) ++ '>' :: post := by
    simp only [setInputValueL, hfind]
    unfold rewriteAttrs
    rw [if_neg (by rw [hnoval]; exact Bool.false_ne_true)]
  have hsecond := findTag_second x (escapeHtmlL v) html pre attrs post hfind hx hescq hgt
  have hrw : rewriteAttrs (escapeHtmlL v) (attrs ++ appendedValueAttr (escapeHtmlL v))
      = attrs ++ appendedValueAttr (escapeHtmlL v) := by
    unfold rewriteAttrs
    rw [if_pos (containsSub_value_appended (escapeHtmlL v) attrs)]
    rw [replaceValues_scan_through (escapeHtmlL v) attrs hnoval,
        replaceValues_appended (escapeHtmlL v) hqraw]
  rw [hfirst]
  simp only [setInputValueL, hsecond, hrw]

/-- The amended C9 theorem applied to a concrete fresh template: filling
`nombre` with `V` in `<p><input id="nombre"></p>` twice equals filling once. -/
theorem set_input_value_idempotent_witness :
    setInputValueL ("nombre").data ("V").data
        (setInputValueL ("nombre").data ("V").data ("<p><input id=\"nombre\"></p>").data)
      = setInputValueL ("nombre").data ("V").data ("<p><input id=\"nombre\"></p>").data :=
  set_input_value_idempotent ("nombre").data ("V").data ("<p><input id=\"nombre\"></p>").data
    ("<p>").data ("<input id=\"nombre\"").data ("</p>").data
    (by decide) (by decide) (by decide) (by decide)

end AccessManager